import Mathlib

/-!
Verification of the `segmenter` service (Bun + Express, TypeScript).

The development shallowly embeds the core of the repository:
`src/utils.ts` (payload validation, bank detection, the page-consolidating
`extractFromParsedDocument`, `extractFromHtml`, `extractFromText`, the
size-bounded splitter `chunkify`, and the line classifier
`splitTableLikeBlocks`) together with `src/segmenter.ts` (`handleSegment`)
and `src/documentProcessor.ts` (`extractTransactionsFromTable`).

JavaScript strings are embedded as `List Char` (`Str`); the handful of
regular expressions the source uses are translated into explicit decidable
scanners over `Str`, faithful to the ECMAScript semantics of the concrete
patterns (leftmost match, greedy quantifiers where the token classes make
greedy matching deterministic, `\b` word boundaries, the `i` flag realised
by lowercasing).  JavaScript numbers that hold currency amounts are
embedded as `ℚ` (the amounts appearing here are exact decimal fractions);
integer counters are `Nat`.  Fallible code (`ensurePayload` throwing) is
embedded with `Except`.
-/

namespace Segmenter

/-- JavaScript strings, embedded as lists of characters. -/
abbrev Str := List Char

/-- The whitespace class used by `String.prototype.trim` and `\s`,
restricted to the ASCII whitespace that the repository's data contains. -/
def isWS (c : Char) : Bool :=
  c = ' ' || c = '\t' || c = '\n' || c = '\r' || c = '\x0b' || c = '\x0c'

/-- ECMAScript word character (`\w`): letters, digits, underscore. -/
def isWordChar (c : Char) : Bool :=
  ('a' ≤ c && c ≤ 'z') || ('A' ≤ c && c ≤ 'Z') || ('0' ≤ c && c ≤ '9') || c = '_'

/-- ASCII digit (`\d`). -/
def isDigit (c : Char) : Bool := '0' ≤ c && c ≤ '9'

/-- Lowercasing, as `String.prototype.toLowerCase` on ASCII data. -/
def toLowerStr (s : Str) : Str := s.map Char.toLower

/-- Drop trailing whitespace. -/
def dropEndWS : Str → Str
  | [] => []
  | c :: rest =>
    match dropEndWS rest with
    | [] => if isWS c then [] else [c]
    | r => c :: r

/-- `String.prototype.trim`: drop whitespace from both ends. -/
def trim (s : Str) : Str := dropEndWS (s.dropWhile isWS)

/-- Does `pat` occur at the very start of `s`? (a literal-prefix test). -/
def leadsWith : Str → Str → Bool
  | [], _ => true
  | _ :: _, [] => false
  | p :: ps, c :: cs => p = c && leadsWith ps cs

/-- Does `pat` occur anywhere in `s`? (`String.prototype.includes` /
an unanchored literal regex test). -/
def containsSub (s pat : Str) : Bool :=
  match s with
  | [] => leadsWith pat []
  | _ :: rest => leadsWith pat s || containsSub rest pat

/-- Case-insensitive substring test (`/lit/i.test(s)` for a literal). -/
def containsSubCI (s pat : Str) : Bool :=
  containsSub (toLowerStr s) (toLowerStr pat)

/-- `s.split(sep)` for a single separator character. -/
def splitOnChar (c : Char) (s : Str) : List Str :=
  match s with
  | [] => [[]]
  | x :: rest =>
    match splitOnChar c rest with
    | [] => [[]]
    | h :: t => if x = c then [] :: h :: t else (x :: h) :: t

/-- `s.split(/\r?\n/)`: a lone `\r` is not a separator. -/
def splitLinesRN (s : Str) : List Str :=
  match s with
  | [] => [[]]
  | '\r' :: '\n' :: rest =>
    [] :: splitLinesRN rest
  | x :: rest =>
    match splitLinesRN rest with
    | [] => [[x]]
    | h :: t => if x = '\n' then [] :: h :: t else (x :: h) :: t

/-- Split at any line terminator (`\n` or `\r`); used to model the fact
that `.` in a JavaScript regex does not match line terminators. -/
def splitTerm (s : Str) : List Str :=
  match s with
  | [] => [[]]
  | x :: rest =>
    match splitTerm rest with
    | [] => [[x]]
    | h :: t => if x = '\n' || x = '\r' then [] :: h :: t else (x :: h) :: t

/-- `Array.prototype.join(sep)` for strings. -/
def joinSep (sep : Str) : List Str → Str
  | [] => []
  | [x] => x
  | x :: y :: rest => x ++ sep ++ joinSep sep (y :: rest)

/-- Collapse every whitespace run into a single space
(`s.replace(/\s+/g, " ")`).  The Boolean state records whether the
previous character was part of a whitespace run. -/
def collapseWSGo : Bool → Str → Str
  | _, [] => []
  | prev, c :: rest =>
    if isWS c then
      if prev then collapseWSGo true rest else ' ' :: collapseWSGo true rest
    else c :: collapseWSGo false rest

/-- `s.replace(/\s+/g, " ")`. -/
def collapseWS (s : Str) : Str := collapseWSGo false s

/-- `[...new Set(l)]`: deduplicate keeping first occurrences. -/
def dedup : List Str → List Str
  | [] => []
  | x :: xs => x :: dedup (xs.filter (· ≠ x))
termination_by l => l.length
decreasing_by
  simp only [List.length_cons]
  exact Nat.lt_succ_of_le (List.length_filter_le _ _)

/-- JavaScript `x || y` on an optional string (empty string is falsy). -/
def jsOrStr (x : Option Str) (y : Str) : Str :=
  match x with
  | some s => if s = [] then y else s
  | none => y

/-- Truthiness of an optional string field (`if (o.f)`). -/
def strTruthy (x : Option Str) : Bool :=
  match x with
  | some s => s ≠ []
  | none => false

/-- Decimal rendering of a natural number (template literal `${n}`). -/
def natToStr (n : Nat) : Str := (toString n).data

/-- `s.slice(a, b)` (for `0 ≤ a ≤ b`; JavaScript clamps to the length). -/
def slice (s : Str) (a b : Nat) : Str := (s.drop a).take (b - a)

end Segmenter

namespace Segmenter

/-! ## The splitter (`chunkify`, src/utils.ts lines 379-396) -/

/-- `"\n\n"` as a pattern. -/
def nlnlPat : Str := ['\n', '\n']

/-- `". "` as a pattern. -/
def dotSpacePat : Str := ['.', ' ']

/-- Last index at which `pat` occurs inside `w`
(`w.lastIndexOf(pat)`, with `none` for `-1`).  Searches downward from
the end. -/
def lastIndexFrom (w pat : Str) : Nat → Option Nat
  | 0 => if leadsWith pat w then some 0 else none
  | i + 1 =>
    if leadsWith pat (w.drop (i + 1)) then some (i + 1)
    else lastIndexFrom w pat i

/-- `w.lastIndexOf(pat)` as an `Option Nat`. -/
def lastIndexOfPat (w pat : Str) : Option Nat :=
  match w.length with
  | 0 => if leadsWith pat w then some 0 else none
  | n + 1 => lastIndexFrom w pat n

/-- `Math.max` over the two `-1`-sentinel results. -/
def maxBreak (a b : Option Nat) : Option Nat :=
  match a, b with
  | none, b => b
  | a, none => a
  | some x, some y => some (max x y)

/-- One step of `chunkify`'s cursor loop: from cursor `start`, the index
`end` at which the current segment stops.  Mirrors lines 386-391 of
src/utils.ts: the natural-breakpoint search runs only when the hard
boundary falls strictly before the end of the string. -/
def chunkStep (s : Str) (mx start : Nat) : Nat :=
  let e := min (start + mx) s.length
  if e < s.length then
    let window := slice s start e
    let lastBreak := maxBreak (lastIndexOfPat window nlnlPat) (lastIndexOfPat window dotSpacePat)
    match lastBreak with
    | some j => if j > 200 then start + j + 1 else e
    | none => e
  else e

/-- The `while (start < s.length)` loop of `chunkify`, with explicit fuel;
`chunkify` runs it with fuel `s.length`, which suffices whenever
`max ≥ 1` (see the termination theorem). -/
def chunkifyGo (s : Str) (mx : Nat) : Nat → Nat → List Str
  | 0, _ => []
  | fuel + 1, start =>
    if start < s.length then
      let e := chunkStep s mx start
      trim (slice s start e) :: chunkifyGo s mx fuel e
    else []

/-- `chunkify(s, max)` (src/utils.ts lines 379-396). -/
def chunkify (s : Str) (mx : Nat) : List Str :=
  if s = [] then []
  else if s.length ≤ mx then [s]
  else (chunkifyGo s mx s.length 0).filter (· ≠ [])


/-! ## Regex scanners for the line classifier (src/utils.ts lines 400-455) -/

/-- Consume exactly `n` digits (`\d{n}`), returning the rest of the string. -/
def digitsExact : Nat → Str → Option Str
  | 0, s => some s
  | _ + 1, [] => none
  | n + 1, c :: rest => if isDigit c then digitsExact n rest else none

/-- Consume one `[\/\-]` separator. -/
def sepSlashDash : Str → Option Str
  | [] => none
  | c :: rest => if c = '/' || c = '-' then some rest else none

/-- Is the head of the string a whitespace character (the `\s+` that ends
the anchored date-row pattern)? -/
def headIsWS : Str → Bool
  | [] => false
  | c :: _ => isWS c

/-- `/^\s*\d{2}[\/\-]\d{2}(?:[\/\-]\d{2,4})?\s+/i.test(line)`. -/
def dateRowTest (line : Str) : Bool :=
  let s := line.dropWhile isWS
  match digitsExact 2 s with
  | none => false
  | some s1 =>
    match sepSlashDash s1 with
    | none => false
    | some s2 =>
      match digitsExact 2 s2 with
      | none => false
      | some s3 =>
        let withGroup :=
          match sepSlashDash s3 with
          | none => false
          | some s4 =>
            (match digitsExact 4 s4 with | some r => headIsWS r | none => false) ||
            (match digitsExact 3 s4 with | some r => headIsWS r | none => false) ||
            (match digitsExact 2 s4 with | some r => headIsWS r | none => false)
        withGroup || headIsWS s3

/-- Match `\s{2,}[^\s]+\s{2,}[^\s]` at the start of `s` (the token
classes are disjoint, so greedy matching is deterministic here). -/
def columnarAt (s : Str) : Bool :=
  match s with
  | c1 :: c2 :: rest =>
    if isWS c1 && isWS c2 then
      match rest.dropWhile isWS with
      | d :: r2 =>
        if !isWS d then
          match r2.dropWhile (fun c => !isWS c) with
          | e1 :: e2 :: r4 =>
            if isWS e1 && isWS e2 then
              match r4.dropWhile isWS with
              | f :: _ => !isWS f
              | [] => false
            else false
          | _ => false
        else false
      | [] => false
    else false
  | _ => false

/-- `/(\s{2,}[^\s]+\s{2,}[^\s]+)/.test(line)`: unanchored scan. -/
def columnarTest : Str → Bool
  | [] => false
  | s@(_ :: rest) => columnarAt s || columnarTest rest

/-- Does `s` start with the word `w` followed by a word boundary? -/
def wordThenBoundary (s w : Str) : Bool :=
  leadsWith w s &&
    (match s.drop w.length with
     | [] => true
     | c :: _ => !isWordChar c)

/-- `/^\s*(DATE|DESCRIPTION|AMOUNT)\b/i.test(line)`. -/
def headerTokenTest (line : Str) : Bool :=
  let s := (toLowerStr line).dropWhile isWS
  wordThenBoundary s "date".data || wordThenBoundary s "description".data ||
    wordThenBoundary s "amount".data

/-- The line-level table classifier `isTableRow` (src/utils.ts 407-413). -/
def isTableRow (line : Str) : Bool :=
  dateRowTest line || containsSub line ['\t'] || columnarTest line || headerTokenTest line

/-! ## The block classifier (`splitTableLikeBlocks`, src/utils.ts 400-455) -/

inductive BlockType where
  | table
  | text
deriving DecidableEq, Repr

structure Block where
  type : BlockType
  content : Str
deriving DecidableEq, Repr

structure SplitState where
  curType : Option BlockType
  buf : List Str
  blocks : List Block
deriving Repr

/-- The classifier's `flush` closure: join the buffer with newlines, trim,
drop if empty, otherwise append a block of the current run type. -/
def flushState (st : SplitState) : SplitState :=
  if st.buf = [] then st
  else
    let content := trim (joinSep ['\n'] st.buf)
    if content = [] then { st with buf := [] }
    else
      { st with
        buf := []
        blocks := st.blocks ++ [⟨st.curType.getD BlockType.text, content⟩] }

/-- One iteration of the classifier's line loop. -/
def classifyLine (st : SplitState) (l : Str) : SplitState :=
  let rowIsTable := isTableRow l
  match st.curType with
  | none =>
    { st with
      curType := some (if rowIsTable then BlockType.table else BlockType.text)
      buf := st.buf ++ [l] }
  | some t =>
    if (rowIsTable && t = BlockType.table) || (!rowIsTable && t = BlockType.text) then
      { st with buf := st.buf ++ [l] }
    else
      let st' := flushState st
      { st' with
        curType := some (if rowIsTable then BlockType.table else BlockType.text)
        buf := [l] }

/-- The post-pass that merges adjacent same-type blocks while the combined
length stays under 2000 characters (src/utils.ts 445-453). -/
def mergeBlocks (blocks : List Block) : List Block :=
  blocks.foldl (fun merged b =>
    match merged.getLast? with
    | some prev =>
      if prev.type = b.type && prev.content.length + b.content.length < 2000 then
        merged.dropLast ++ [⟨prev.type, prev.content ++ '\n' :: b.content⟩]
      else merged ++ [b]
    | none => merged ++ [b]) []

/-- `splitTableLikeBlocks(text)` (src/utils.ts 400-455). -/
def splitTableLikeBlocks (text : Str) : List Block :=
  let lines := splitLinesRN text
  let st := lines.foldl classifyLine ⟨none, [], []⟩
  mergeBlocks (flushState st).blocks

/-! ## Header/footer suppression (`isPageFooterOrHeader`, src/utils.ts 243-259) -/

/-- Match `page \d+ of \d+` at the start of `s` (`s` already lowercased). -/
def pageOfAt (s : Str) : Bool :=
  if leadsWith "page ".data s then
    let r := s.drop 5
    match r with
    | c :: _ =>
      isDigit c &&
      (let r2 := r.dropWhile isDigit
       leadsWith " of ".data r2 &&
       (match r2.drop 4 with
        | d :: _ => isDigit d
        | [] => false))
    | [] => false
  else false

/-- `/page \d+ of \d+/i.test(content)` (content lowercased beforehand). -/
def pageOfTest : Str → Bool
  | [] => false
  | s@(_ :: rest) => pageOfAt s || pageOfTest rest

/-- `/^\d+ of \d+$/i.test(s)`: the whole string is `digits of digits`. -/
def nOfMTest (s : Str) : Bool :=
  match s with
  | [] => false
  | c :: _ =>
    isDigit c &&
    (let r := s.dropWhile isDigit
     leadsWith " of ".data r &&
     (let r2 := r.drop 4
      match r2 with
      | d :: _ => isDigit d && r2.dropWhile isDigit = []
      | [] => false))

/-- `/^\d{4} \d{7} \d{4}-\d{4}/i.test(s)`: the document-code pattern. -/
def docCodeTest (s : Str) : Bool :=
  match digitsExact 4 s with
  | some (' ' :: r1) =>
    (match digitsExact 7 r1 with
     | some (' ' :: r2) =>
       (match digitsExact 4 r2 with
        | some ('-' :: r3) => (digitsExact 4 r3).isSome
        | _ => false)
     | _ => false)
  | _ => false

/-- `isPageFooterOrHeader(text)` (src/utils.ts 243-259). -/
def isPageFooterOrHeader (text : Str) : Bool :=
  let lines := splitOnChar '\n' (trim text)
  if lines.length > 3 then false
  else
    let content := toLowerStr text
    pageOfTest content ||
    nOfMTest (trim content) ||
    containsSub content "member fdic".data ||
    containsSub content "continued on next page".data ||
    leadsWith "statement date:".data content ||
    leadsWith "account number:".data content ||
    docCodeTest content

/-! ## The table-structure analyzer (`analyzeTableStructure`, src/utils.ts 261-297) -/

structure Cell where
  text : Option Str
deriving DecidableEq, Repr

/-- The metadata object built by `analyzeTableStructure` (it carries no
`transaction_count` field; that counter lives on the page accumulator). -/
structure AnalyzeMeta where
  has_transactions : Bool
  debit_columns : List Str
  credit_columns : List Str
  date_column : Option Str
  description_column : Option Str
deriving DecidableEq, Repr

/-- Remainder of `s` after the first occurrence of `pat`, if any. -/
def afterFirst (s pat : Str) : Option Str :=
  match s with
  | [] => if leadsWith pat [] then some [] else none
  | _ :: rest => if leadsWith pat s then some (s.drop pat.length) else afterFirst rest pat

/-- Does some line of `s` contain `a` followed (on the same line, since `.`
does not cross line terminators) by `b`? -/
def orderedPairOnLine (s a b : Str) : Bool :=
  (splitTerm s).any (fun line =>
    match afterFirst (toLowerStr line) a with
    | some r => containsSub r b
    | none => false)

/-- `/debits.*credits|withdrawals.*deposits/i.test(content)`. -/
def debitsCreditsBodyTest (content : Str) : Bool :=
  orderedPairOnLine content "debits".data "credits".data ||
  orderedPairOnLine content "withdrawals".data "deposits".data

/-- `analyzeTableStructure(cells, content)` (src/utils.ts 261-297). -/
def analyzeTableStructure (cells : List Cell) (content : Str) : AnalyzeMeta :=
  let headerTexts := (cells.filter (fun c => strTruthy c.text)).map (fun c => toLowerStr (c.text.getD []))
  let m := headerTexts.foldl (fun (m : AnalyzeMeta) t =>
    let m :=
      if containsSub t "date".data then
        { m with date_column := some t, has_transactions := true }
      else m
    let m :=
      if containsSub t "description".data || containsSub t "concept".data ||
          containsSub t "detail".data then
        { m with description_column := some t }
      else m
    let m :=
      if containsSub t "debit".data || containsSub t "withdrawal".data ||
          containsSub t "out".data || containsSub t "payment".data then
        { m with debit_columns := m.debit_columns ++ [t], has_transactions := true }
      else m
    let m :=
      if containsSub t "credit".data || containsSub t "deposit".data ||
          containsSub t "in".data || containsSub t "income".data then
        { m with credit_columns := m.credit_columns ++ [t], has_transactions := true }
      else m
    m) ⟨false, [], [], none, none⟩
  if debitsCreditsBodyTest content then { m with has_transactions := true } else m

/-! ## Transaction-line counting inside the page loop (src/utils.ts 110-113) -/

def monthNames : List Str :=
  ["jan", "feb", "mar", "apr", "may", "jun", "jul", "aug", "sep", "oct", "nov", "dec"].map String.data

/-- Match `\d{1,2}[\/\-]\d{1,2}` at the start of `s` (existential test:
one or two digits, a separator, at least one digit). -/
def ddSlashAt (s : Str) : Bool :=
  match s with
  | [] => false
  | c :: rest =>
    isDigit c &&
    (match rest with
     | [] => false
     | s1 :: rest2 =>
       (isDigit s1 &&
         (match rest2 with
          | s2 :: rest3 =>
            (s2 = '/' || s2 = '-') &&
              (match rest3 with
               | d :: _ => isDigit d
               | [] => false)
          | [] => false)) ||
       ((s1 = '/' || s1 = '-') &&
         (match rest2 with
          | d :: _ => isDigit d
          | [] => false)))

/-- Scan for `\b(jan|...|dec|\d{1,2}[\/\-]\d{1,2})` with the word boundary
tracked via the previous character; `s` is lowercased beforehand. -/
def dateLineScan : Str → Bool → Bool
  | [], _ => false
  | s@(c :: rest), prevWord =>
    (!prevWord && (monthNames.any (fun m => leadsWith m s) || ddSlashAt s)) ||
      dateLineScan rest (isWordChar c)

/-- `/\b(jan|feb|...|dec|\d{1,2}[\/\-]\d{1,2})/i.test(line)`. -/
def dateLineTest (line : Str) : Bool :=
  dateLineScan (toLowerStr line) false

/-! ## Data model of the parsed document and of output chunks -/

structure FragContent where
  content : Option Str
  markdown : Option Str
  cells : Option (List Cell)
deriving DecidableEq, Repr

structure Fragment where
  fragment_type : Str
  reading_order : Int
  content : Option FragContent
deriving DecidableEq, Repr

structure Page where
  page_number : Option Nat
  page_fragments : Option (List Fragment)
deriving DecidableEq, Repr

structure Labels where
  bank : Option Str
deriving DecidableEq, Repr

structure DocChunk where
  content : Option Str
  page_number : Option Nat
deriving DecidableEq, Repr

structure ParsedDoc where
  pages : Option (List Page)
  chunks : Option (List DocChunk)
  labels : Option Labels
deriving DecidableEq, Repr

/-- The page-level metadata accumulator (the fields of the object literal
at src/utils.ts 69-76). -/
structure Metadata where
  has_transactions : Bool
  debit_columns : List Str
  credit_columns : List Str
  date_column : Option Str
  description_column : Option Str
  transaction_count : Nat
deriving DecidableEq, Repr

def initMetadata : Metadata := ⟨false, [], [], none, none, 0⟩

/-- The output `Chunk` type (src/utils.ts 40-57). -/
structure Chunk where
  bank_name : Option Str
  chunk_id : Str
  chunk_number : Nat
  total_chunks : Option Nat
  page_range : Option Str
  char_len : Nat
  has_table : Bool
  chunk_text : Str
  metadata : Option Metadata
deriving DecidableEq, Repr, Inhabited

/-! ## Bank detection (src/utils.ts 32-38) -/

/-- Modelled from the spec: the curated institution-name list imported
from `src/bankNames.ts`, a file absent from the pack.  The spec (§2, §4.6)
describes it as an injectable ordered list of known institution names and
the README names the first entries; the concrete contents do not matter
for any claim proved below. -/
def BANK_NAMES : List Str :=
  ["Bank of America", "Chase", "Wells Fargo", "Citi", "Capital One",
   "TD Bank", "HSBC", "Amerant"].map String.data

/-- `detectBankName(fullText)` (src/utils.ts 32-38). -/
def detectBankName (fullText : Str) : Str :=
  match BANK_NAMES.find? (fun name => containsSub (toLowerStr fullText) (toLowerStr name)) with
  | some name => name
  | none => "Unknown".data

/-! ## `JSON.stringify` over the typed document (used only to seed bank
detection when `labels.bank` is absent; src/utils.ts 63-64).  The key
order of the original request object is external input, so the model
fixes the declaration order of the structures. -/

def jsonEscape (s : Str) : Str :=
  s.foldr (fun c acc =>
    match c with
    | '"' => '\\' :: '"' :: acc
    | '\\' => '\\' :: '\\' :: acc
    | '\n' => '\\' :: 'n' :: acc
    | '\r' => '\\' :: 'r' :: acc
    | '\t' => '\\' :: 't' :: acc
    | c => c :: acc) []

def jsonStr (s : Str) : Str := '"' :: (jsonEscape s ++ ['"'])

def jsonObj (fields : List (Option (Str × Str))) : Str :=
  '\x7b' :: (joinSep [','] ((fields.filterMap id).map (fun kv => jsonStr kv.1 ++ ':' :: kv.2)) ++ ['\x7d'])

def jsonArr (elems : List Str) : Str := '[' :: (joinSep [','] elems ++ [']'])

def jsonCell (c : Cell) : Str :=
  jsonObj [c.text.map (fun t => ("text".data, jsonStr t))]

def jsonFragContent (fc : FragContent) : Str :=
  jsonObj
    [fc.content.map (fun t => ("content".data, jsonStr t)),
     fc.markdown.map (fun t => ("markdown".data, jsonStr t)),
     fc.cells.map (fun cs => ("cells".data, jsonArr (cs.map jsonCell)))]

def jsonFragment (f : Fragment) : Str :=
  jsonObj
    [some ("fragment_type".data, jsonStr f.fragment_type),
     some ("reading_order".data, (toString f.reading_order).data),
     f.content.map (fun fc => ("content".data, jsonFragContent fc))]

def jsonPage (p : Page) : Str :=
  jsonObj
    [p.page_number.map (fun n => ("page_number".data, natToStr n)),
     p.page_fragments.map (fun fs => ("page_fragments".data, jsonArr (fs.map jsonFragment)))]

def jsonDocChunk (c : DocChunk) : Str :=
  jsonObj
    [c.content.map (fun t => ("content".data, jsonStr t)),
     c.page_number.map (fun n => ("page_number".data, natToStr n))]

def jsonLabels (l : Labels) : Str :=
  jsonObj [l.bank.map (fun b => ("bank".data, jsonStr b))]

def jsonStringifyDoc (d : ParsedDoc) : Str :=
  jsonObj
    [d.pages.map (fun ps => ("pages".data, jsonArr (ps.map jsonPage))),
     d.chunks.map (fun cs => ("chunks".data, jsonArr (cs.map jsonDocChunk))),
     d.labels.map (fun l => ("labels".data, jsonLabels l))]

/-- The bank name used by `extractFromParsedDocument` (src/utils.ts 63-64):
`parsedDoc.labels?.bank || detectBankName(JSON.stringify(parsedDoc).substring(0, 5000))`. -/
def bankNameOfDoc (d : ParsedDoc) : Str :=
  jsOrStr (d.labels.bind Labels.bank) (detectBankName ((jsonStringifyDoc d).take 5000))

/-! ## Per-page extraction and the page-consolidation loop
    (`extractFromParsedDocument`, src/utils.ts 59-226) -/

/-- Stable insertion into a run sorted by `reading_order`; together with
`sortByRO` this models the stable `Array.prototype.sort` with the numeric
comparator `a.reading_order - b.reading_order`. -/
def insertByRO (f : Fragment) : List Fragment → List Fragment
  | [] => [f]
  | g :: rest =>
    if g.reading_order < f.reading_order then g :: insertByRO f rest
    else f :: g :: rest

def sortByRO : List Fragment → List Fragment
  | [] => []
  | f :: rest => insertByRO f (sortByRO rest)

/-- `"\n\n### TABLE ###\n"`, prepended to each table fragment. -/
def tableMarker : Str := "\n\n### TABLE ###\n".data

/-- One iteration of the fragment loop (src/utils.ts 98-123), acting on the
pair (pageContent, pageMetadata). -/
def fragStep (acc : Str × Metadata) (fragment : Fragment) : Str × Metadata :=
  let pageContent := acc.1
  let pageMetadata := acc.2
  if fragment.fragment_type = "table".data then
    let tableContent :=
      jsOrStr (fragment.content.bind FragContent.content)
        (jsOrStr (fragment.content.bind FragContent.markdown) [])
    let tableMeta := analyzeTableStructure ((fragment.content.bind FragContent.cells).getD []) tableContent
    let pageMetadata :=
      if tableMeta.has_transactions then
        { pageMetadata with
          has_transactions := true
          debit_columns := dedup (pageMetadata.debit_columns ++ tableMeta.debit_columns)
          credit_columns := dedup (pageMetadata.credit_columns ++ tableMeta.credit_columns)
          date_column :=
            if strTruthy tableMeta.date_column then tableMeta.date_column
            else pageMetadata.date_column
          description_column :=
            if strTruthy tableMeta.description_column then tableMeta.description_column
            else pageMetadata.description_column
          transaction_count :=
            pageMetadata.transaction_count +
              ((splitOnChar '\n' tableContent).filter dateLineTest).length }
      else pageMetadata
    (pageContent ++ tableMarker ++ tableContent, pageMetadata)
  else if fragment.fragment_type = "text".data then
    let textContent := jsOrStr (fragment.content.bind FragContent.content) []
    if trim textContent ≠ [] && !isPageFooterOrHeader textContent then
      (pageContent ++ '\n' :: textContent, pageMetadata)
    else (pageContent, pageMetadata)
  else (pageContent, pageMetadata)

/-- Extract one page's content and metadata: sort the fragments by reading
order, run the fragment loop, and trim the accumulated content
(src/utils.ts 84-125). -/
def extractPageContent (frags : List Fragment) : Str × Metadata :=
  let r := (sortByRO frags).foldl fragStep ([], initMetadata)
  (trim r.1, r.2)

/-- `mergeMetadata(target, source)` (src/utils.ts 228-241). -/
def mergeMetadata (target source : Metadata) : Metadata :=
  { has_transactions := target.has_transactions || source.has_transactions
    debit_columns := dedup (target.debit_columns ++ source.debit_columns)
    credit_columns := dedup (target.credit_columns ++ source.credit_columns)
    date_column :=
      if strTruthy source.date_column && !strTruthy target.date_column then source.date_column
      else target.date_column
    description_column :=
      if strTruthy source.description_column && !strTruthy target.description_column then
        source.description_column
      else target.description_column
    transaction_count := target.transaction_count + source.transaction_count }

/-- `"\n\n--- PAGE BREAK ---\n\n"`. -/
def pageBreakMarker : Str := "\n\n--- PAGE BREAK ---\n\n".data

/-- The mutable locals of the consolidation loop (src/utils.ts 60-78). -/
structure ConsState where
  chunks : List Chunk
  idx : Nat
  cur : Str
  meta : Metadata
  startP : Nat
  endP : Nat
deriving Repr

def initConsState : ConsState := ⟨[], 1, [], initMetadata, 1, 1⟩

def pageRangeStr (s e : Nat) : Str :=
  if s = e then natToStr s else natToStr s ++ '-' :: natToStr e

/-- The chunk pushed when the buffer is flushed (src/utils.ts 146-155 and
167-176). -/
def flushChunk (bankName : Str) (st : ConsState) : Chunk :=
  { bank_name := some bankName
    chunk_id := "chunk_".data ++ natToStr st.idx
    chunk_number := st.idx
    total_chunks := none
    page_range := some (pageRangeStr st.startP st.endP)
    char_len := st.cur.length
    has_table := st.meta.has_transactions
    chunk_text := st.cur
    metadata := some st.meta }

/-- `page.page_number || pageIdx + 1` (JavaScript `||`: `0` and `undefined`
both fall back). -/
def pageNumOr (p : Page) (pageIdx : Nat) : Nat :=
  match p.page_number with
  | some n => if n = 0 then pageIdx + 1 else n
  | none => pageIdx + 1

/-- The seed / append / flush-and-reseed branch of the page loop
(src/utils.ts 127-163), acting on the loop state for one page's extracted
content and metadata. -/
def pageBranch (bankName : Str) (mx : Nat) (st : ConsState) (pageContent : Str)
    (pageMeta : Metadata) (pn : Nat) : ConsState :=
  let wouldExceedMax := st.cur.length + pageContent.length > mx
  if st.cur.length = 0 then
    { st with cur := pageContent, meta := pageMeta, startP := pn, endP := pn }
  else if !wouldExceedMax then
    { st with
      cur := st.cur ++ pageBreakMarker ++ pageContent
      endP := pn
      meta := mergeMetadata st.meta pageMeta }
  else
    { chunks := st.chunks ++ [flushChunk bankName st]
      idx := st.idx + 1
      cur := pageContent
      meta := pageMeta
      startP := pn
      endP := pn }

/-- One iteration of the page loop (src/utils.ts 80-178): seed the buffer,
append with the page-break marker, or flush and reseed; on the last page
flush the remaining non-blank buffer.  Pages without a `page_fragments`
field are skipped (`continue`) before the last-page flush. -/
def processPage (bankName : Str) (mx : Nat) (st : ConsState) (page : Page) (pageIdx : Nat)
    (isLast : Bool) : ConsState :=
  match page.page_fragments with
  | none => st
  | some frags =>
    let e := extractPageContent frags
    let st' := pageBranch bankName mx st e.1 e.2 (pageNumOr page pageIdx)
    if isLast && trim st'.cur ≠ [] then
      { st' with chunks := st'.chunks ++ [flushChunk bankName st'] }
    else st'

/-- The page loop itself (`for (let pageIdx = 0; ...)`). -/
def consGo (bankName : Str) (mx : Nat) : ConsState → List Page → Nat → ConsState
  | st, [], _ => st
  | st, p :: rest, i =>
    consGo bankName mx (processPage bankName mx st p i rest.isEmpty) rest (i + 1)

/-- `/\|.*\|/.test(s)`: some line holds at least two pipes. -/
def pipePairTest (s : Str) : Bool :=
  (splitTerm s).any (fun l => 2 ≤ (l.filter (· = '|')).length)

/-- The chunk records pushed by the fallback `chunkify` loop
(src/utils.ts 201-211), numbered from `idx`. -/
def numberSegs (bankName : Str) : Nat → List Str → List Chunk
  | _, [] => []
  | idx, seg :: rest =>
    { bank_name := some bankName
      chunk_id := "chunk_".data ++ natToStr idx
      chunk_number := idx
      total_chunks := none
      page_range := none
      char_len := seg.length
      has_table := pipePairTest seg || containsSub seg ['\t']
      chunk_text := seg
      metadata := none } :: numberSegs bankName (idx + 1) rest

/-- The fallback over the document's pre-existing `chunks` array
(src/utils.ts 182-213). -/
def fallbackChunks (bankName : Str) (mx idx : Nat) (dcs : List DocChunk) : List Chunk :=
  let consolidatedContent :=
    trim (dcs.foldl (fun acc c => acc ++ ('\n' :: '\n' :: jsOrStr c.content [])) [])
  if consolidatedContent.length ≤ mx then
    [{ bank_name := some bankName
       chunk_id := "chunk_".data ++ natToStr idx
       chunk_number := idx
       total_chunks := none
       page_range := none
       char_len := consolidatedContent.length
       has_table := pipePairTest consolidatedContent || containsSub consolidatedContent ['\t']
       chunk_text := consolidatedContent
       metadata := none }]
  else
    numberSegs bankName idx (chunkify consolidatedContent mx)

structure ExtractResult where
  chunks : List Chunk
  bankName : Str
  tablesDetected : Nat
deriving Repr

/-- `extractFromParsedDocument(parsedDoc, max)` (src/utils.ts 59-226). -/
def extractFromParsedDocument (parsedDoc : ParsedDoc) (mx : Nat) : ExtractResult :=
  let bankName := bankNameOfDoc parsedDoc
  let st :=
    match parsedDoc.pages with
    | some pages => consGo bankName mx initConsState pages 0
    | none => initConsState
  let chunks :=
    if st.chunks.length = 0 then
      match parsedDoc.chunks with
      | some dcs => fallbackChunks bankName mx st.idx dcs
      | none => st.chunks
    else st.chunks
  let totalChunks := chunks.length
  { chunks := chunks.map (fun c => { c with total_chunks := some totalChunks })
    bankName := bankName
    tablesDetected :=
      match parsedDoc.pages with
      | some pages =>
        pages.foldl (fun sum p =>
          sum + ((p.page_fragments.getD []).filter (fun f => f.fragment_type = "table".data)).length) 0
      | none => 0 }

/-! ## The HTML and plain-text paths (src/utils.ts 299-377) -/

/-- A chunk of the HTML/text paths (no bank name, page range or metadata
on the record; src/utils.ts 323-345 and 361-368). -/
def mkPathChunk (idx : Nat) (hasTable : Bool) (seg : Str) : Chunk :=
  { bank_name := none
    chunk_id := "chunk_".data ++ natToStr idx
    chunk_number := idx
    total_chunks := none
    page_range := none
    char_len := seg.length
    has_table := hasTable
    chunk_text := seg
    metadata := none }

/-- The inner `for (const seg of chunkify(...))` loop: push a chunk and
advance `idx`. -/
def pushSegs (hasTable : Bool) (acc : List Chunk × Nat) (segs : List Str) : List Chunk × Nat :=
  segs.foldl (fun acc2 seg => (acc2.1 ++ [mkPathChunk acc2.2 hasTable seg], acc2.2 + 1)) acc

/-- `extractFromText(text, max)` (src/utils.ts 355-377). -/
def extractFromText (text : Str) (mx : Nat) : ExtractResult :=
  let blocks := splitTableLikeBlocks text
  let r := blocks.foldl
    (fun (acc : List Chunk × Nat) b => pushSegs (b.type = BlockType.table) acc (chunkify b.content mx))
    ([], 1)
  let chunks := r.1
  let totalChunks := chunks.length
  { chunks := chunks.map (fun c => { c with total_chunks := some totalChunks })
    bankName := detectBankName text
    tablesDetected := (blocks.filter (fun b => b.type = BlockType.table)).length }

/-- The result of the external HTML-traversal capability (cheerio is an
out-of-scope collaborator per spec §1): every table as its list of rows,
each row its list of raw cell texts, plus the markup-stripped text of the
document with tables removed. -/
structure HtmlDoc where
  tables : List (List (List Str))
  text : Str
deriving Repr

/-- The table texts built at src/utils.ts 301-313: cells are trimmed and
whitespace-collapsed, joined by tabs; non-empty rows joined by newlines;
blank tables dropped. -/
def htmlTables (doc : HtmlDoc) : List Str :=
  (doc.tables.map (fun trs =>
    trim (joinSep ['\n'] (trs.filterMap (fun tds =>
      let cols := tds.map (fun cell => collapseWS (trim cell))
      if cols ≠ [] then some (joinSep ['\t'] cols) else none))))).filter (· ≠ [])

/-- `extractFromHtml(html, max)` (src/utils.ts 299-353), parameterized by
the capability result for the given markup. -/
def extractFromHtml (doc : HtmlDoc) (mx : Nat) : ExtractResult :=
  let tables := htmlTables doc
  let nonTable := trim (collapseWS doc.text)
  let r1 : List Chunk × Nat :=
    if nonTable ≠ [] then pushSegs false ([], 1) (chunkify nonTable mx) else ([], 1)
  let r2 := tables.foldl (fun acc t => pushSegs true acc (chunkify t mx)) r1
  let chunks := r2.1
  let totalChunks := chunks.length
  { chunks := chunks.map (fun c => { c with total_chunks := some totalChunks })
    bankName := detectBankName (trim (nonTable ++ ' ' :: joinSep [' '] tables))
    tablesDetected := tables.length }

/-! ## Payload validation and the entry point
    (`ensurePayload`, src/utils.ts 4-30; `handleSegment`, src/segmenter.ts 2-32) -/

structure Payload where
  html : Option Str
  text : Option Str
  parsed_document : Option ParsedDoc
  document : Option ParsedDoc
  pages : Option (List Page)
  chunks : Option (List DocChunk)
  labels : Option Labels
  max_chars_per_chunk : Option Int
deriving Repr

/-- The payload viewed as a parsed document (the `|| obj` fallback at
src/utils.ts 7 lets the request body itself carry `pages`/`chunks`). -/
def selfDoc (p : Payload) : ParsedDoc := ⟨p.pages, p.chunks, p.labels⟩

/-- `obj?.parsed_document || obj?.document || obj`. -/
def effectiveDoc (p : Payload) : ParsedDoc :=
  match p.parsed_document with
  | some d => d
  | none =>
    match p.document with
    | some d => d
    | none => selfDoc p

/-- `sanitizeMax(v)` (src/utils.ts 26-30); a missing or non-numeric value
is `none` (JavaScript `Number(...)` yields `NaN` there). -/
def sanitizeMax (v : Option Int) : Nat :=
  match v with
  | none => 12000
  | some n => if n ≤ 0 then 12000 else min n.toNat 60000

structure EnsureResult where
  html : Str
  text : Str
  parsedDoc : Option ParsedDoc
  max : Nat
deriving Repr

/-- `ensurePayload(obj)` (src/utils.ts 4-24); the thrown 400 error is the
`Except.error` branch. -/
def ensurePayload (p : Payload) : Except Str EnsureResult :=
  let html := match p.html with | some s => trim s | none => []
  let text := match p.text with | some s => trim s | none => []
  let parsedDoc := effectiveDoc p
  if parsedDoc.pages.isSome || parsedDoc.chunks.isSome then
    Except.ok ⟨html, text, some parsedDoc, sanitizeMax p.max_chars_per_chunk⟩
  else if html = [] && text = [] then
    Except.error "Empty payload: provide `html`, `text`, or `parsed_document`.".data
  else
    Except.ok ⟨html, text, none, sanitizeMax p.max_chars_per_chunk⟩

structure Stats where
  total_chunks : Nat
  total_chars : Nat
  avg_chunk_size : Int
  tables_detected : Nat
deriving Repr

/-- `Math.round` (round half toward positive infinity). -/
def jsRound (q : ℚ) : Int := Int.floor (q + 1 / 2)

structure SegOutput where
  ok : Bool
  bank_name : Str
  stats : Stats
  chunks : List Chunk
deriving Repr

/-- The response object built in both branches of `handleSegment`
(src/segmenter.ts 7-17 and 21-31). -/
def mkOutput (r : ExtractResult) : SegOutput :=
  let totalChars := r.chunks.foldl (fun acc c => acc + c.char_len) 0
  { ok := true
    bank_name := r.bankName
    stats :=
      { total_chunks := r.chunks.length
        total_chars := totalChars
        avg_chunk_size := jsRound ((totalChars : ℚ) / ((max r.chunks.length 1 : Nat) : ℚ))
        tables_detected := r.tablesDetected }
    chunks := r.chunks }

/-- `handleSegment(input)` (src/segmenter.ts 2-32), parameterized by the
external HTML-parsing capability used on the HTML branch.  Note the
source destructures only `{ html, text, max }` from `ensurePayload` and
dispatches on `html` truthiness alone. -/
def handleSegment (parseHtml : Str → HtmlDoc) (input : Payload) : Except Str (List SegOutput) :=
  match ensurePayload input with
  | Except.error e => Except.error e
  | Except.ok r =>
    if r.html ≠ [] then Except.ok [mkOutput (extractFromHtml (parseHtml r.html) r.max)]
    else Except.ok [mkOutput (extractFromText r.text r.max)]

/-! ## The transaction parser (src/documentProcessor.ts 42-187) -/

inductive TType where
  | debit
  | credit
  | unknown
deriving DecidableEq, Repr

structure Transaction where
  date : Str
  description : Str
  amount : ℚ
  type : TType
  balance : Option ℚ
  raw_text : Str
deriving DecidableEq, Repr

/-- Generic scanner for `\b`-anchored word patterns: `p` receives each
suffix whose previous character is not a word character.  Every pattern
fed to it starts with a word character, for which `\b` is exactly
"previous character is not a word character". -/
def scanWordBound (p : Str → Bool) : Str → Bool → Bool
  | [], _ => false
  | s@(c :: rest), prevWord => (!prevWord && p s) || scanWordBound p rest (isWordChar c)

/-- Match `w` plus an optional trailing `s`, followed by a word boundary. -/
def wordOptSAt (s w : Str) : Bool :=
  leadsWith w s &&
    (match s.drop w.length with
     | [] => true
     | 's' :: r2 =>
       (match r2 with
        | [] => true
        | c :: _ => !isWordChar c)
     | c :: _ => !isWordChar c)

/-- `/\b(debits?|credits?)\b/i.test(text)`. -/
def hasDebitCreditTest (text : Str) : Bool :=
  scanWordBound (fun s => wordOptSAt s "debit".data || wordOptSAt s "credit".data)
    (toLowerStr text) false

def isDigitComma (c : Char) : Bool := isDigit c || c = ','

/-- `-\$[\d,]+\.?\d*` (the `g`-flagged signed-amount test): existence of `-$` followed by a
digit or comma. -/
def signedAmountAt : Str → Bool
  | '-' :: '$' :: c :: _ => isDigitComma c
  | _ => false

def signedAmountTest : Str → Bool
  | [] => false
  | s@(_ :: rest) => signedAmountAt s || signedAmountTest rest

/-- Word boundary after a match: end of string or a non-word character. -/
def bAfter : Str → Bool
  | [] => true
  | c :: _ => !isWordChar c

/-- Case-insensitive literal prefix (`pat` given lowercased). -/
def leadsWithCI (pat s : Str) : Bool := toLowerStr (s.take pat.length) = pat

/-- Length of a `(Jan|...|Dec)\s+\d{1,2}\b` match starting at `s`
(the leading `\b` is handled by the caller's scan). -/
def monthDateLenAt (s : Str) : Option Nat :=
  if monthNames.any (fun m => leadsWithCI m s) then
    let r := s.drop 3
    let wsRun := r.takeWhile isWS
    if wsRun = [] then none
    else
      let r2 := r.drop wsRun.length
      match r2 with
      | d1 :: d2 :: rest =>
        if isDigit d1 then
          if isDigit d2 then
            (match rest with
             | [] => some (3 + wsRun.length + 2)
             | c :: _ => if !isWordChar c then some (3 + wsRun.length + 2) else none)
          else if !isWordChar d2 then some (3 + wsRun.length + 1) else none
        else none
      | [d1] => if isDigit d1 then some (3 + wsRun.length + 1) else none
      | [] => none
  else none

/-- Length of a `\d{1,2}[\/\-]\d{1,2}(?:[\/\-]\d{2,4})?\b` match starting at
`s`, with the regex engine's backtracking priority (greedy digit counts
first, optional group present first). -/
def numDateLenAt (s : Str) : Option Nat :=
  let afterD2 := fun (r2 : Str) (len2 : Nat) =>
    let grp :=
      match sepSlashDash r2 with
      | some r3 =>
        (match digitsExact 4 r3 with
         | some r4 => if bAfter r4 then some (len2 + 1 + 4) else none
         | none => none) <|>
        (match digitsExact 3 r3 with
         | some r4 => if bAfter r4 then some (len2 + 1 + 3) else none
         | none => none) <|>
        (match digitsExact 2 r3 with
         | some r4 => if bAfter r4 then some (len2 + 1 + 2) else none
         | none => none)
      | none => none
    grp <|> (if bAfter r2 then some len2 else none)
  let tryD2 := fun (rest : Str) (base : Nat) =>
    (match digitsExact 2 rest with
     | some r2 => afterD2 r2 (base + 2)
     | none => none) <|>
    (match digitsExact 1 rest with
     | some r2 => afterD2 r2 (base + 1)
     | none => none)
  (match digitsExact 2 s with
   | some r1 =>
     (match sepSlashDash r1 with
      | some r2 => tryD2 r2 3
      | none => none)
   | none => none) <|>
  (match digitsExact 1 s with
   | some r1 =>
     (match sepSlashDash r1 with
      | some r2 => tryD2 r2 2
      | none => none)
   | none => none)

/-- Length of a `\d{4}-\d{2}-\d{2}\b` match starting at `s`. -/
def isoDateLenAt (s : Str) : Option Nat :=
  match digitsExact 4 s with
  | some ('-' :: r1) =>
    (match digitsExact 2 r1 with
     | some ('-' :: r2) =>
       (match digitsExact 2 r2 with
        | some r3 => if bAfter r3 then some 10 else none
        | none => none)
     | _ => none)
  | _ => none

/-- Leftmost `\b`-anchored match of a date family in `text`, returning
the matched substring (`line.match(pattern)[0]`). -/
def findDateMatch (lenAt : Str → Option Nat) : Str → Bool → Option Str
  | [], _ => none
  | s@(c :: rest), prevWord =>
    if !prevWord then
      match lenAt s with
      | some len => some (s.take len)
      | none => findDateMatch lenAt rest (isWordChar c)
    else findDateMatch lenAt rest (isWordChar c)

def findDateIn (lenAt : Str → Option Nat) (text : Str) : Option Str :=
  findDateMatch lenAt text false

inductive DateFamily where
  | monthName
  | numeric
  | iso
deriving DecidableEq, Repr

def famLenAt : DateFamily → Str → Option Nat
  | DateFamily.monthName => monthDateLenAt
  | DateFamily.numeric => numDateLenAt
  | DateFamily.iso => isoDateLenAt

structure TxFormat where
  hasDebitCredit : Bool
  hasSignedAmounts : Bool
  datePattern : Option DateFamily
deriving Repr

/-- `detectTransactionFormat(text)` (src/documentProcessor.ts 45-69). -/
def detectTransactionFormat (text : Str) : TxFormat :=
  { hasDebitCredit := hasDebitCreditTest text
    hasSignedAmounts := signedAmountTest text
    datePattern :=
      if (findDateIn monthDateLenAt text).isSome then some DateFamily.monthName
      else if (findDateIn numDateLenAt text).isSome then some DateFamily.numeric
      else if (findDateIn isoDateLenAt text).isSome then some DateFamily.iso
      else none }

/-- One `-?\$?[\d,]+\.?\d*` token at the start of `s`, with the rest of
the string (the optional sign and dollar are committed greedily; the core
`[\d,]+` cannot begin at a consumed `-`/`$`, so no backtracking arises). -/
def tokenAt (s : Str) : Option (Str × Str) :=
  let core := fun (pre : Str) (r : Str) =>
    let run := r.takeWhile isDigitComma
    if run = [] then none
    else
      let r2 := r.drop run.length
      match r2 with
      | '.' :: r3 =>
        let frac := r3.takeWhile isDigit
        some (pre ++ run ++ '.' :: frac, r3.drop frac.length)
      | _ => some (pre ++ run, r2)
  match s with
  | '-' :: rest =>
    (match rest with
     | '$' :: r2 => core ['-', '$'] r2
     | _ => core ['-'] rest)
  | '$' :: rest => core ['$'] rest
  | _ => core [] s

/-- `line.match` with the global token pattern `-?\$?[\d,]+\.?\d*`: the global leftmost token scan
(fuelled by the string length; every step consumes at least one
character). -/
def scanTokensGo : Nat → Str → List Str
  | 0, _ => []
  | _ + 1, [] => []
  | fuel + 1, s@(_ :: rest) =>
    match tokenAt s with
    | some (tok, r) => tok :: scanTokensGo fuel r
    | none => scanTokensGo fuel rest

def scanTokens (s : Str) : List Str := scanTokensGo s.length s

/-- `line.replace` of every `-?\$?[\d,]+\.?\d*` token with the empty string: the same scan, keeping the
unmatched characters. -/
def removeTokensGo : Nat → Str → Str
  | 0, s => s
  | _ + 1, [] => []
  | fuel + 1, s@(c :: rest) =>
    match tokenAt s with
    | some (_, r) => removeTokensGo fuel r
    | none => c :: removeTokensGo fuel rest

def removeTokens (s : Str) : Str := removeTokensGo s.length s

def digitsToNat (ds : Str) : Nat :=
  ds.foldl (fun acc c => acc * 10 + (c.toNat - '0'.toNat)) 0

/-- `parseFloat` on the shapes produced by the token scanner after
`[$,]`-stripping: optional sign, digits, optional dot and digits;
`none` plays the role of `NaN`. -/
def parseFloatQ (s : Str) : Option ℚ :=
  let negr : Bool × Str := match s with | '-' :: r => (true, r) | _ => (false, s)
  let intPart := negr.2.takeWhile isDigit
  let r2 := negr.2.drop intPart.length
  let fracPart := match r2 with | '.' :: r3 => r3.takeWhile isDigit | _ => []
  if intPart = [] && fracPart = [] then none
  else
    let scaled : Int := Int.ofNat (digitsToNat intPart * 10 ^ fracPart.length + digitsToNat fracPart)
    some (mkRat (if negr.1 then Int.neg scaled else scaled) (10 ^ fracPart.length))

def stripDollarComma (s : Str) : Str := s.filter (fun c => c ≠ '$' && c ≠ ',')

/-- `/\b(date|description|amount|debit|credit|balance)\b/i.test(line)`. -/
def headerKwTest (line : Str) : Bool :=
  scanWordBound (fun s =>
    (["date", "description", "amount", "debit", "credit", "balance"].map String.data).any
      (fun w => wordThenBoundary s w)) (toLowerStr line) false

/-- `/\b(total|subtotal|ending balance|beginning balance)\b/i.test(line)`. -/
def totalsKwTest (line : Str) : Bool :=
  scanWordBound (fun s =>
    (["total", "subtotal", "ending balance", "beginning balance"].map String.data).any
      (fun w => wordThenBoundary s w)) (toLowerStr line) false

/-- First match of `-\$?([\d,]+\.?\d*)`, returning capture group 1. -/
def debitCaptureAt (s : Str) : Option Str :=
  match s with
  | '-' :: rest =>
    let r := match rest with | '$' :: r2 => r2 | _ => rest
    let run := r.takeWhile isDigitComma
    if run = [] then none
    else
      let r2 := r.drop run.length
      some (match r2 with
        | '.' :: r3 => run ++ '.' :: r3.takeWhile isDigit
        | _ => run)
  | _ => none

def debitMatchCapture : Str → Option Str
  | [] => none
  | s@(_ :: rest) => (debitCaptureAt s) <|> debitMatchCapture rest

/-- Existence of a `/(?<![-.])(\$?([\d,]+\.?\d*))/` match: a `$`-or-digit
start not preceded by `-` or `.`. -/
def creditScan : Str → Option Char → Bool
  | [], _ => false
  | s@(c :: rest), prev =>
    ((match prev with | some p => p ≠ '-' && p ≠ '.' | none => true) &&
      (match s with
       | '$' :: r =>
         (match r with
          | d :: _ => isDigitComma d
          | [] => false)
       | d :: _ => isDigitComma d
       | [] => false)) ||
    creditScan rest (some c)

def creditMatchExists (line : Str) : Bool := creditScan line none

/-- `/\b(deposit|credit|incoming|wire in)\b/i.test(line)`. -/
def creditKwTest (line : Str) : Bool :=
  scanWordBound (fun s =>
    (["deposit", "credit", "incoming", "wire in"].map String.data).any
      (fun w => wordThenBoundary s w)) (toLowerStr line) false

/-- `/\b(withdrawal|debit|outgoing|wire out|payment|fee|charge)\b/i.test(line)`. -/
def debitKwTest (line : Str) : Bool :=
  scanWordBound (fun s =>
    (["withdrawal", "debit", "outgoing", "wire out", "payment", "fee", "charge"].map String.data).any
      (fun w => wordThenBoundary s w)) (toLowerStr line) false

/-- `Math.abs` on the embedded rationals (core operations only, so that
concrete runs reduce in the kernel). -/
def jsAbs (q : ℚ) : ℚ := if q < 0 then Rat.neg q else q

/-- The type/amount/balance resolution of src/documentProcessor.ts
111-165.  In the `hasDebitCredit` branch, an all-comma capture would be
`NaN` in JavaScript; the model collapses that degenerate value to `0`
(no claim depends on it). -/
def resolveTypeAmount (format : TxFormat) (line : Str) (amounts : List ℚ) :
    TType × ℚ × Option ℚ :=
  if format.hasDebitCredit then
    match debitMatchCapture line with
    | some cap =>
      (TType.debit, jsAbs ((parseFloatQ (cap.filter (· ≠ ','))).getD 0), none)
    | none =>
      if creditMatchExists line && amounts.length > 0 then
        if 2 ≤ amounts.length then
          (TType.credit, amounts.headI, amounts.getLast?)
        else (TType.credit, amounts.headI, none)
      else (TType.unknown, 0, none)
  else if format.hasSignedAmounts then
    let tyAmt : TType × ℚ :=
      match amounts.find? (fun a => a < 0) with
      | some negativeAmount => (TType.debit, jsAbs negativeAmount)
      | none =>
        if amounts.length > 0 then (TType.credit, amounts.headI) else (TType.unknown, 0)
    (tyAmt.1, tyAmt.2, if 1 < amounts.length then amounts.getLast? else none)
  else
    if 2 ≤ amounts.length then
      let ty :=
        if creditKwTest line then TType.credit
        else if debitKwTest line then TType.debit
        else TType.unknown
      (ty, jsAbs amounts.headI, amounts.getLast?)
    else (TType.unknown, jsAbs amounts.headI, none)

/-- Remove the first occurrence of `pat` (`s.replace(pat, '')` for a
string argument). -/
def replaceFirst (s pat : Str) : Str :=
  match s with
  | [] => s
  | c :: rest => if leadsWith pat s then s.drop pat.length else c :: replaceFirst rest pat

/-- `extractTransactionsFromTable(tableText)`
(src/documentProcessor.ts 74-187). -/
def extractTransactionsFromTable (tableText : Str) : List Transaction :=
  let format := detectTransactionFormat tableText
  let lines := (splitOnChar '\n' tableText).filter (fun l => trim l ≠ [])
  let startIdx := (List.range (min 3 lines.length)).foldl
    (fun acc i => if headerKwTest (lines.getD i []) then i + 1 else acc) 0
  (lines.drop startIdx).foldl (fun txs line0 =>
    let line := trim line0
    if totalsKwTest line then txs
    else
      match format.datePattern with
      | none => txs
      | some fam =>
        match findDateIn (famLenAt fam) line with
        | none => txs
        | some dateStr =>
          let amounts :=
            ((scanTokens line).filterMap (fun a => parseFloatQ (stripDollarComma a))).filter (· ≠ 0)
          if amounts = [] then txs
          else
            let tab := resolveTypeAmount format line amounts
            let desc0 := trim (collapseWS (removeTokens (replaceFirst line dateStr)))
            let description := if desc0 = [] then "Transaction".data else desc0
            txs ++ [{ date := dateStr
                      description := description
                      amount := tab.2.1
                      type := tab.1
                      balance := tab.2.2
                      raw_text := line }]) []

/-! ## Claim-side (specification-worded) definitions, for comparison with
the source embedding above -/

/-- Spec §3 merge rule as the claims state it, applied fragment-wise:
set union with deduplication on the column lists, logical OR on
`has_transactions`, first-wins on `date_column`/`description_column`,
running sum on `transaction_count`. -/
def specMergeFragment (m : Metadata) (tm : AnalyzeMeta) (cnt : Nat) : Metadata :=
  { has_transactions := m.has_transactions || tm.has_transactions
    debit_columns := dedup (m.debit_columns ++ tm.debit_columns)
    credit_columns := dedup (m.credit_columns ++ tm.credit_columns)
    date_column := if strTruthy m.date_column then m.date_column else tm.date_column
    description_column :=
      if strTruthy m.description_column then m.description_column else tm.description_column
    transaction_count := m.transaction_count + cnt }

/-- The table content the fragment loop derives for a table fragment
(structured content, else markdown, else empty). -/
def fragTableContent (fragment : Fragment) : Str :=
  jsOrStr (fragment.content.bind FragContent.content)
    (jsOrStr (fragment.content.bind FragContent.markdown) [])

def fragCells (fragment : Fragment) : List Cell :=
  (fragment.content.bind FragContent.cells).getD []

/-- The transaction-line count the page loop adds per table fragment. -/
def countDateLines (content : Str) : Nat :=
  ((splitOnChar '\n' content).filter dateLineTest).length

/-- Page-level metadata as claim C4 describes it: the §3 merge rule folded
over **every** table fragment's analyzed metadata, in reading order. -/
def specFragmentFold (frags : List Fragment) : Metadata :=
  (sortByRO frags).foldl (fun m f =>
    if f.fragment_type = "table".data then
      specMergeFragment m (analyzeTableStructure (fragCells f) (fragTableContent f))
        (countDateLines (fragTableContent f))
    else m) initMetadata

/-- The merge rule the source actually applies per table fragment
(src/utils.ts 103-114): fragments whose analyzed metadata lacks
`has_transactions` are skipped entirely, and `date_column` /
`description_column` are overwritten (last-wins). -/
def codeMergeFragment (m : Metadata) (tm : AnalyzeMeta) (cnt : Nat) : Metadata :=
  if tm.has_transactions then
    { has_transactions := true
      debit_columns := dedup (m.debit_columns ++ tm.debit_columns)
      credit_columns := dedup (m.credit_columns ++ tm.credit_columns)
      date_column := if strTruthy tm.date_column then tm.date_column else m.date_column
      description_column :=
        if strTruthy tm.description_column then tm.description_column else m.description_column
      transaction_count := m.transaction_count + cnt }
  else m

def codeFragmentFold (frags : List Fragment) : Metadata :=
  (sortByRO frags).foldl (fun m f =>
    if f.fragment_type = "table".data then
      codeMergeFragment m (analyzeTableStructure (fragCells f) (fragTableContent f))
        (countDateLines (fragTableContent f))
    else m) initMetadata

/-- A breakpoint (double newline or period-plus-space) occurring at offset
`j` of the window, as claim C6 words it. -/
def breakAt (w : Str) (j : Nat) : Bool :=
  leadsWith nlnlPat (w.drop j) || leadsWith dotSpacePat (w.drop j)

/-- Greatest breakpoint offset in the window, searched from the end. -/
def lastBreakFrom (w : Str) : Nat → Option Nat
  | 0 => if breakAt w 0 then some 0 else none
  | j + 1 => if breakAt w (j + 1) then some (j + 1) else lastBreakFrom w j

/-- The last occurrence of either breakpoint pattern in `w`. -/
def lastBreakSpec (w : Str) : Option Nat :=
  match w.length with
  | 0 => if breakAt w 0 then some 0 else none
  | n + 1 => lastBreakFrom w n

/-- Claim C6's cursor step exactly as stated: the breakpoint rule is
applied to the window `[cursor, cursor+maxChars)` of every iteration,
including a final window that reaches the end of the text. -/
def claimStepAsStated (s : Str) (mx start : Nat) : Nat :=
  let e := min (start + mx) s.length
  let window := slice s start e
  match lastBreakSpec window with
  | some j => if j > 200 then start + j + 1 else e
  | none => e

def claimGoAsStated (s : Str) (mx : Nat) : Nat → Nat → List Str
  | 0, _ => []
  | fuel + 1, start =>
    if start < s.length then
      let e := claimStepAsStated s mx start
      trim (slice s start e) :: claimGoAsStated s mx fuel e
    else []

/-- The splitter as claim C6 describes it, word for word. -/
def claimChunkifyAsStated (s : Str) (mx : Nat) : List Str :=
  if s = [] then []
  else if s.length ≤ mx then [s]
  else (claimGoAsStated s mx s.length 0).filter (· ≠ [])

/-- The amended cursor step: identical to the claim's wording except that
the breakpoint rule applies only when the hard boundary falls strictly
before the end of the text (`cursor + maxChars < len`); a final window,
even one of exactly `maxChars` characters, is emitted whole. -/
def claimStepStrict (s : Str) (mx start : Nat) : Nat :=
  let e := min (start + mx) s.length
  if e < s.length then
    let window := slice s start e
    match lastBreakSpec window with
    | some j => if j > 200 then start + j + 1 else e
    | none => e
  else e

def claimGoStrict (s : Str) (mx : Nat) : Nat → Nat → List Str
  | 0, _ => []
  | fuel + 1, start =>
    if start < s.length then
      let e := claimStepStrict s mx start
      trim (slice s start e) :: claimGoStrict s mx fuel e
    else []

/-- The splitter per the amended claim C6. -/
def claimChunkifyStrict (s : Str) (mx : Nat) : List Str :=
  if s = [] then []
  else if s.length ≤ mx then [s]
  else (claimGoStrict s mx s.length 0).filter (· ≠ [])

/-- Claim C9's validity condition: nothing recognizable — the html and
text fields hold nothing but whitespace (or are absent / non-strings) and
the effective parsed document carries neither `pages` nor `chunks`. -/
def noUsableInput (p : Payload) : Bool :=
  (trim (p.html.getD []) = []) && (trim (p.text.getD []) = []) &&
  (effectiveDoc p).pages.isNone && (effectiveDoc p).chunks.isNone

def exceptIsOk : Except Str α → Bool
  | Except.ok _ => true
  | Except.error _ => false

/-- Chunk lists of a successful entry-point response. -/
def okChunks : Except Str (List SegOutput) → Option (List (List Chunk))
  | Except.ok outs => some (outs.map SegOutput.chunks)
  | Except.error _ => none

/-! ## Concrete inputs used by counterexamples, scenarios and witnesses -/

def textFragment (ro : Int) (c : Str) : Fragment :=
  ⟨"text".data, ro, some ⟨some c, none, none⟩⟩

def tableFragment (ro : Int) (cells : List Str) (content : Str) : Fragment :=
  ⟨"table".data, ro, some ⟨some content, none, some (cells.map (fun t => ⟨some t⟩))⟩⟩

def simplePage (n : Nat) (fs : List Fragment) : Page := ⟨some n, some fs⟩

/-- A parsed document with one page holding one text fragment. -/
def docParsedOnly : ParsedDoc :=
  ⟨some [simplePage 1 [textFragment 0 "hello world".data]], none, some ⟨some "B".data⟩⟩

/-- The payload carrying only that parsed document (no html, no text). -/
def payloadParsedOnly : Payload :=
  ⟨none, none, some docParsedOnly, none, none, none, none, none⟩

/-- A trivial stand-in for the HTML capability (the HTML branch is not
taken by any input used below). -/
def trivialHtmlCap : Str → HtmlDoc := fun _ => ⟨[], []⟩

/-- A parsed document whose pre-chunked `chunks` array is empty. -/
def docEmptyChunks : ParsedDoc := ⟨none, some [], some ⟨some "B".data⟩⟩

/-- Two pages of 10 and 20 characters. -/
def docTwoPages : ParsedDoc :=
  ⟨some [simplePage 1 [textFragment 0 (List.replicate 10 'a')],
         simplePage 2 [textFragment 0 (List.replicate 20 'b')]], none, some ⟨some "B".data⟩⟩

/-- Three pages of 5000 characters each (spec Scenario 4). -/
def docThreePages : ParsedDoc :=
  ⟨some [simplePage 1 [textFragment 0 (List.replicate 5000 'a')],
         simplePage 2 [textFragment 0 (List.replicate 5000 'a')],
         simplePage 3 [textFragment 0 (List.replicate 5000 'a')]], none, some ⟨some "B".data⟩⟩

/-- A table fragment whose only header cell is `description`. -/
def fragDescOnly : Fragment := tableFragment 0 ["description".data] "x".data

/-- Two table fragments with date headers `date a` / `date b`. -/
def fragDateA : Fragment := tableFragment 0 ["date a".data] "x".data

def fragDateB : Fragment := tableFragment 1 ["date b".data] "x".data

/-- 210 `a`s, 205 `b`s, a period-space breakpoint, 3 `c`s (420 characters):
with `maxChars = 210` the second window is exactly 210 characters long and
ends at the end of the text, and holds a breakpoint at offset 205. -/
def strFinalWindow : Str :=
  List.replicate 210 'a' ++ List.replicate 205 'b' ++ ". ".data ++ List.replicate 3 'c'

/-- A string with leading whitespace whose trim crosses the `max` boundary. -/
def strLeadingWS : Str := " aaaaa".data

/-- A minimal HTML-capability result with non-blank stripped text. -/
def docHtmlSample : HtmlDoc := ⟨[], "hi".data⟩

end Segmenter

namespace Segmenter

/-! ## Theorems -/

/-! ### Lemmas about `trim` -/

/-- No leading whitespace. -/
def noLeadWS (l : Str) : Prop := ∀ c, l.head? = some c → isWS c = false

theorem length_dropWhile_ws_le (l : Str) : (l.dropWhile isWS).length ≤ l.length := by
  induction l with
  | nil => simp
  | cons a t ih =>
    rw [List.dropWhile_cons]
    by_cases h : isWS a
    · simp only [if_pos h, List.length_cons]; omega
    · simp [if_neg h]

theorem noLeadWS_dropWhile (l : Str) : noLeadWS (l.dropWhile isWS) := by
  induction l with
  | nil => intro c h; simp at h
  | cons a t ih =>
    intro c h
    by_cases ha : isWS a
    · rw [List.dropWhile_cons, if_pos ha] at h
      exact ih c h
    · rw [List.dropWhile_cons, if_neg ha] at h
      simp at h
      subst h
      simpa using ha

theorem dropWhile_eq_self_of_noLead (l : Str) (h : noLeadWS l) : l.dropWhile isWS = l := by
  cases l with
  | nil => rfl
  | cons a t =>
    have := h a rfl
    simp [List.dropWhile_cons, this]

theorem noLeadWS_dropEndWS (l : Str) (h : noLeadWS l) : noLeadWS (dropEndWS l) := by
  cases l with
  | nil => exact h
  | cons a t =>
    intro c hc
    have ha := h a rfl
    unfold dropEndWS at hc
    cases hd : dropEndWS t with
    | nil =>
      rw [hd] at hc
      rw [if_neg (by simp [ha])] at hc
      simp at hc
      rwa [← hc]
    | cons x xs =>
      rw [hd] at hc
      simp at hc
      subst hc
      exact ha

theorem dropEndWS_cons_of_ne (a : Char) (t : Str) (h : dropEndWS t ≠ []) :
    dropEndWS (a :: t) = a :: dropEndWS t := by
  have hcons : dropEndWS (a :: t) =
      (match dropEndWS t with
       | [] => if isWS a then [] else [a]
       | r => a :: r) := rfl
  rw [hcons]
  cases hd : dropEndWS t with
  | nil => exact absurd hd h
  | cons x xs => rfl

theorem dropEndWS_idem (l : Str) : dropEndWS (dropEndWS l) = dropEndWS l := by
  induction l with
  | nil => rfl
  | cons a t ih =>
    show dropEndWS (dropEndWS (a :: t)) = dropEndWS (a :: t)
    have hcons : dropEndWS (a :: t) =
        (match dropEndWS t with
         | [] => if isWS a then [] else [a]
         | r => a :: r) := rfl
    cases hd : dropEndWS t with
    | nil =>
      rw [hcons, hd]
      by_cases hws : isWS a
      · simp [hws, dropEndWS]
      · simp [hws, dropEndWS]
    | cons x xs =>
      rw [hcons, hd]
      have h2 : dropEndWS (x :: xs) = x :: xs := by
        rw [← hd, ih, hd]
      rw [dropEndWS_cons_of_ne a (x :: xs) (by rw [h2]; simp), h2]

theorem trim_idem (s : Str) : trim (trim s) = trim s := by
  show dropEndWS ((dropEndWS (s.dropWhile isWS)).dropWhile isWS) = dropEndWS (s.dropWhile isWS)
  rw [dropWhile_eq_self_of_noLead _ (noLeadWS_dropEndWS _ (noLeadWS_dropWhile s))]
  exact dropEndWS_idem _

theorem length_dropEndWS_le (l : Str) : (dropEndWS l).length ≤ l.length := by
  induction l with
  | nil => simp [dropEndWS]
  | cons a t ih =>
    have hcons : dropEndWS (a :: t) =
        (match dropEndWS t with
         | [] => if isWS a then [] else [a]
         | r => a :: r) := rfl
    cases hd : dropEndWS t with
    | nil =>
      rw [hcons, hd]
      by_cases hws : isWS a
      · simp [hws]
      · simp [hws]
    | cons x xs =>
      rw [hd] at ih
      rw [hcons, hd]
      show (a :: x :: xs).length ≤ (a :: t).length
      simp only [List.length_cons] at ih ⊢
      omega

theorem dropWhile_ws_eq_self_of_length (l : Str)
    (h : (l.dropWhile isWS).length = l.length) : l.dropWhile isWS = l := by
  cases l with
  | nil => rfl
  | cons a t =>
    by_cases hws : isWS a
    · rw [List.dropWhile_cons, if_pos hws] at h
      have hle := length_dropWhile_ws_le t
      simp only [List.length_cons] at h
      omega
    · rw [List.dropWhile_cons, if_neg hws]

theorem dropEndWS_eq_self_of_length (l : Str)
    (h : (dropEndWS l).length = l.length) : dropEndWS l = l := by
  induction l with
  | nil => rfl
  | cons a t ih =>
    have hcons : dropEndWS (a :: t) =
        (match dropEndWS t with
         | [] => if isWS a then [] else [a]
         | r => a :: r) := rfl
    cases hd : dropEndWS t with
    | nil =>
      rw [hcons, hd] at h ⊢
      have hlen := length_dropEndWS_le t
      rw [hd] at hlen
      simp only [List.length_nil] at hlen
      by_cases hws : isWS a
      · rw [if_pos hws] at h; simp at h
      · rw [if_neg hws] at h ⊢
        simp only [List.length_cons, List.length_nil] at h
        have ht : t = [] := List.eq_nil_of_length_eq_zero (by omega)
        rw [ht]
    | cons x xs =>
      have he : dropEndWS (a :: t) = a :: x :: xs := by rw [hcons, hd]
      rw [he] at h ⊢
      simp only [List.length_cons] at h
      have hlx : (dropEndWS t).length = t.length := by
        rw [hd]; simp only [List.length_cons]; omega
      have ht : dropEndWS t = t := ih hlx
      show a :: x :: xs = a :: t
      rw [← hd, ht]

theorem parts_of_trim_eq_self (s : Str) (h : trim s = s) :
    s.dropWhile isWS = s ∧ dropEndWS s = s := by
  have h1 : (s.dropWhile isWS).length ≤ s.length := length_dropWhile_ws_le _
  have h2 : (dropEndWS (s.dropWhile isWS)).length ≤ (s.dropWhile isWS).length :=
    length_dropEndWS_le _
  have hts : (dropEndWS (s.dropWhile isWS)).length = s.length := by
    show (trim s).length = s.length
    rw [h]
  have hlen : (s.dropWhile isWS).length = s.length := by omega
  have hdw : s.dropWhile isWS = s := dropWhile_ws_eq_self_of_length s hlen
  refine ⟨hdw, ?_⟩
  have hde : dropEndWS s = trim s := by
    show dropEndWS s = dropEndWS (s.dropWhile isWS)
    rw [hdw]
  rw [hde, h]

theorem head_not_ws_of_trimmed (x : Char) (t : Str)
    (h : trim (x :: t) = x :: t) : isWS x = false := by
  have hdw := (parts_of_trim_eq_self _ h).1
  by_cases hws : isWS x
  · rw [List.dropWhile_cons, if_pos hws] at hdw
    have hle := length_dropWhile_ws_le t
    rw [hdw] at hle
    simp only [List.length_cons] at hle
    omega
  · simp at hws
    exact hws

theorem dropEndWS_append (l r : Str) (hr : dropEndWS r = r) (hnr : r ≠ []) :
    dropEndWS (l ++ r) = l ++ r := by
  induction l with
  | nil => simpa using hr
  | cons d l' ih =>
    show dropEndWS (d :: (l' ++ r)) = d :: (l' ++ r)
    rw [dropEndWS_cons_of_ne d (l' ++ r) (by rw [ih]; simp [hnr]), ih]

theorem trim_append_block (a b : Str) (c : Char)
    (ha : trim a = a) (hna : a ≠ []) (hb : trim b = b) (hnb : b ≠ []) :
    trim (a ++ c :: b) = a ++ c :: b := by
  obtain ⟨x, t, rfl⟩ : ∃ x t, a = x :: t := by
    cases a with
    | nil => exact absurd rfl hna
    | cons x t => exact ⟨x, t, rfl⟩
  have hx : isWS x = false := head_not_ws_of_trimmed x t ha
  show dropEndWS (((x :: t) ++ c :: b).dropWhile isWS) = (x :: t) ++ c :: b
  rw [List.cons_append, List.dropWhile_cons, if_neg (by simp [hx])]
  have hdeb : dropEndWS (c :: b) = c :: b := by
    rw [dropEndWS_cons_of_ne c b (by rw [(parts_of_trim_eq_self b hb).2]; exact hnb),
      (parts_of_trim_eq_self b hb).2]
  rw [show x :: (t ++ c :: b) = (x :: t) ++ (c :: b) from rfl]
  exact dropEndWS_append _ _ hdeb (by simp)

/-! ### Lemmas about `chunkify` -/

theorem mem_chunkifyGo_trimmed (s : Str) (mx : Nat) :
    ∀ fuel start seg, seg ∈ chunkifyGo s mx fuel start → trim seg = seg := by
  intro fuel
  induction fuel with
  | zero => intro start seg h; simp [chunkifyGo] at h
  | succ f ih =>
    intro start seg h
    rw [chunkifyGo] at h
    by_cases hs : start < s.length
    · rw [if_pos hs] at h
      rcases List.mem_cons.mp h with h1 | h2
      · rw [h1]; exact trim_idem _
      · exact ih _ seg h2
    · rw [if_neg hs] at h
      simp at h

theorem chunkify_mem_good (s : Str) (mx : Nat) (h : trim s = s) :
    ∀ seg ∈ chunkify s mx, trim seg = seg ∧ seg ≠ [] := by
  intro seg hseg
  rw [chunkify] at hseg
  by_cases h0 : s = []
  · rw [if_pos h0] at hseg; simp at hseg
  · rw [if_neg h0] at hseg
    by_cases hlen : s.length ≤ mx
    · rw [if_pos hlen] at hseg
      simp at hseg
      subst hseg
      exact ⟨h, h0⟩
    · rw [if_neg hlen] at hseg
      have hm := List.mem_filter.mp hseg
      exact ⟨mem_chunkifyGo_trimmed s mx _ _ _ hm.1, by simpa using hm.2⟩

theorem map_trim_id (l : List Str) (h : ∀ x ∈ l, trim x = x) : l.map trim = l := by
  induction l with
  | nil => rfl
  | cons a t ih =>
    simp only [List.map_cons]
    rw [h a (List.mem_cons_self a t), ih (fun x hx => h x (List.mem_cons_of_mem a hx))]

/-- C7 (amended): on input that is already trimmed, the splitter's outputs
are already trimmed, so `split(s.trim(), max)` equals `split(s, max)` with
each output trimmed.  (For untrimmed `s` the equality fails: see the
counterexample.) -/
theorem claim_C7_amended :
    ∀ (s : Str) (mx : Nat), trim s = s → chunkify (trim s) mx = (chunkify s mx).map trim := by
  intro s mx h
  rw [h]
  symm
  apply map_trim_id
  intro x hx
  exact (chunkify_mem_good s mx h x hx).1

/-- Witness for C7: the amended claim applied at `s = "ab"`, `max = 1`. -/
theorem claim_C7_amended_witness :
    chunkify (trim "ab".data) 1 = (chunkify "ab".data 1).map trim :=
  claim_C7_amended "ab".data 1 (by decide)

/-! ### Lemmas for the splitter's termination and breakpoint search -/

theorem leadsWith_length (pat s : Str) (h : leadsWith pat s = true) : pat.length ≤ s.length := by
  induction pat generalizing s with
  | nil => simp
  | cons p ps ih =>
    cases s with
    | nil => simp [leadsWith] at h
    | cons c cs =>
      simp only [leadsWith, Bool.and_eq_true] at h
      simpa using ih cs h.2

theorem lastIndexFrom_le (w pat : Str) :
    ∀ n j, lastIndexFrom w pat n = some j → j ≤ n := by
  intro n
  induction n with
  | zero =>
    intro j h
    rw [lastIndexFrom] at h
    split at h
    · simp at h; omega
    · simp at h
  | succ m ih =>
    intro j h
    rw [lastIndexFrom] at h
    split at h
    · simp at h; omega
    · have := ih j h; omega

theorem lastIndexFrom_leads (w pat : Str) :
    ∀ n j, lastIndexFrom w pat n = some j → leadsWith pat (w.drop j) = true := by
  intro n
  induction n with
  | zero =>
    intro j h
    rw [lastIndexFrom] at h
    split at h
    · simp at h
      subst h
      assumption
    · simp at h
  | succ m ih =>
    intro j h
    rw [lastIndexFrom] at h
    split at h
    · simp at h
      subst h
      assumption
    · exact ih j h

theorem lastIndexOfPat_bound (w pat : Str) (_hp : pat ≠ []) :
    ∀ j, lastIndexOfPat w pat = some j → j + pat.length ≤ w.length := by
  intro j h
  rw [lastIndexOfPat] at h
  split at h
  · next hw =>
    split at h
    · next hl =>
      simp at h
      subst h
      have := leadsWith_length pat w hl
      omega
    · simp at h
  · next n hw =>
    have hj := lastIndexFrom_le w pat n j h
    have hl := lastIndexFrom_leads w pat n j h
    have := leadsWith_length pat (w.drop j) hl
    have hdl : (w.drop j).length = w.length - j := by simp
    omega

theorem maxBreak_bound (a b : Option Nat) (k : Nat)
    (ha : ∀ j, a = some j → j + 2 ≤ k) (hb : ∀ j, b = some j → j + 2 ≤ k) :
    ∀ j, maxBreak a b = some j → j + 2 ≤ k := by
  intro j h
  cases a with
  | none => exact hb j (by simpa [maxBreak] using h)
  | some x =>
    cases b with
    | none => exact ha j (by simpa [maxBreak] using h)
    | some y =>
      simp [maxBreak] at h
      have h1 := ha x rfl
      have h2 := hb y rfl
      subst h
      omega

theorem chunkStep_bounds (s : Str) (mx start : Nat) (hmx : 1 ≤ mx) (hs : start < s.length) :
    start < chunkStep s mx start ∧ chunkStep s mx start ≤ s.length := by
  rw [chunkStep]
  simp only []
  have hemin : start < min (start + mx) s.length := lt_min (by omega) hs
  have hele : min (start + mx) s.length ≤ s.length := min_le_right _ _
  by_cases he : min (start + mx) s.length < s.length
  · rw [if_pos he]
    have hemx : min (start + mx) s.length = start + mx := by
      by_cases hc : start + mx ≤ s.length
      · exact Nat.min_eq_left hc
      · exfalso
        rw [Nat.min_eq_right (by omega)] at he
        omega
    have hwin : (slice s start (min (start + mx) s.length)).length = mx := by
      rw [hemx]
      simp [slice]
      omega
    have hbnd := maxBreak_bound
      (lastIndexOfPat (slice s start (min (start + mx) s.length)) nlnlPat)
      (lastIndexOfPat (slice s start (min (start + mx) s.length)) dotSpacePat) mx
      (fun j hj => by
        have := lastIndexOfPat_bound _ nlnlPat (by decide) j hj
        rw [hwin] at this
        simpa [nlnlPat] using this)
      (fun j hj => by
        have := lastIndexOfPat_bound _ dotSpacePat (by decide) j hj
        rw [hwin] at this
        simpa [dotSpacePat] using this)
    have hlt : start + mx < s.length := by rw [hemx] at he; exact he
    constructor
    · split
      · split
        · omega
        · exact hemin
      · exact hemin
    · split
      · next j hmb =>
        split
        · next hj =>
          have := hbnd j hmb
          omega
        · exact hele
      · exact hele
  · rw [if_neg he]
    exact ⟨hemin, hele⟩

theorem chunkifyGo_fuel (s : Str) (mx : Nat) (hmx : 1 ≤ mx) :
    ∀ d fuel₁ fuel₂ start, s.length - start ≤ d → s.length - start ≤ fuel₁ →
      s.length - start ≤ fuel₂ →
      chunkifyGo s mx fuel₁ start = chunkifyGo s mx fuel₂ start := by
  intro d
  induction d with
  | zero =>
    intro f1 f2 start hd h1 h2
    have hs : ¬ start < s.length := by omega
    cases f1 <;> cases f2 <;> simp [chunkifyGo, hs]
  | succ n ih =>
    intro f1 f2 start hd h1 h2
    by_cases hs : start < s.length
    · obtain ⟨m1, rfl⟩ : ∃ m, f1 = m + 1 := ⟨f1 - 1, by omega⟩
      obtain ⟨m2, rfl⟩ : ∃ m, f2 = m + 1 := ⟨f2 - 1, by omega⟩
      have hstep := chunkStep_bounds s mx start hmx hs
      simp only [chunkifyGo, if_pos hs]
      congr 1
      exact ih m1 m2 (chunkStep s mx start) (by omega) (by omega) (by omega)
    · cases m1 : f1 <;> cases m2 : f2 <;> simp [chunkifyGo, hs]

/-- C10: for `maxChars ≥ 1` the splitter's cursor strictly advances (while
staying within the text), so the loop is well-founded on the remaining
length — any fuel of at least the remaining length computes the same
segment list, in particular the `s.length` fuel `chunkify` uses; and for
`maxChars = 0` the cursor does not advance, which is why the boundary's
`sanitizeMax` (defaulting to 12,000 and never below 1) matters. -/
theorem claim_C10_termination :
    (∀ (s : Str) (mx : Nat), 1 ≤ mx → ∀ start, start < s.length →
        start < chunkStep s mx start ∧ chunkStep s mx start ≤ s.length) ∧
    (∀ (s : Str) (mx : Nat), 1 ≤ mx → ∀ fuel₁ fuel₂ start,
        s.length - start ≤ fuel₁ → s.length - start ≤ fuel₂ →
        chunkifyGo s mx fuel₁ start = chunkifyGo s mx fuel₂ start) ∧
    (∀ (s : Str) (start : Nat), start < s.length → chunkStep s 0 start = start) := by
  refine ⟨?_, ?_, ?_⟩
  · intro s mx hmx start hs
    exact chunkStep_bounds s mx start hmx hs
  · intro s mx hmx f1 f2 start h1 h2
    exact chunkifyGo_fuel s mx hmx (s.length - start) f1 f2 start le_rfl h1 h2
  · intro s start hs
    rw [chunkStep]
    simp only [Nat.add_zero]
    rw [Nat.min_eq_left (le_of_lt hs), if_pos hs]
    have hwin : slice s start start = [] := by simp [slice]
    rw [hwin]
    have h1 : lastIndexOfPat [] nlnlPat = none := by decide
    have h2 : lastIndexOfPat [] dotSpacePat = none := by decide
    rw [h1, h2]
    rfl

/-- Witness for C10 at `s = "ab"`, `max = 1` (and the zero-`max`
non-advance at the same string). -/
theorem claim_C10_termination_witness :
    (0 < chunkStep "ab".data 1 0 ∧ chunkStep "ab".data 1 0 ≤ "ab".data.length) ∧
    chunkifyGo "ab".data 1 5 0 = chunkifyGo "ab".data 1 9 0 ∧
    chunkStep "ab".data 0 0 = 0 :=
  ⟨claim_C10_termination.1 "ab".data 1 (by decide) 0 (by decide),
   claim_C10_termination.2.1 "ab".data 1 (by decide) 5 9 0 (by decide) (by decide),
   claim_C10_termination.2.2 "ab".data 0 (by decide)⟩

/-! ### The breakpoint search: `Math.max` of two `lastIndexOf` equals the
last occurrence of either pattern -/

theorem lastBreakFrom_eq (w : Str) :
    ∀ n, lastBreakFrom w n =
      maxBreak (lastIndexFrom w nlnlPat n) (lastIndexFrom w dotSpacePat n) := by
  intro n
  induction n with
  | zero =>
    by_cases h1 : leadsWith nlnlPat w
    · by_cases h2 : leadsWith dotSpacePat w
      · simp [lastBreakFrom, lastIndexFrom, breakAt, maxBreak, List.drop_zero, h1, h2]
      · simp [lastBreakFrom, lastIndexFrom, breakAt, maxBreak, List.drop_zero, h1, h2]
    · by_cases h2 : leadsWith dotSpacePat w
      · simp [lastBreakFrom, lastIndexFrom, breakAt, maxBreak, List.drop_zero, h1, h2]
      · simp [lastBreakFrom, lastIndexFrom, breakAt, maxBreak, List.drop_zero, h1, h2]
  | succ m ih =>
    by_cases h1 : leadsWith nlnlPat (w.drop (m + 1))
    · by_cases h2 : leadsWith dotSpacePat (w.drop (m + 1))
      · simp [lastBreakFrom, lastIndexFrom, breakAt, maxBreak, h1, h2]
      · rw [lastBreakFrom, if_pos (by simp [breakAt, h1])]
        rw [lastIndexFrom, if_pos h1, lastIndexFrom, if_neg h2]
        cases hy : lastIndexFrom w dotSpacePat m with
        | none => simp [maxBreak]
        | some y =>
          have := lastIndexFrom_le w dotSpacePat m y hy
          simp [maxBreak]
          omega
    · by_cases h2 : leadsWith dotSpacePat (w.drop (m + 1))
      · rw [lastBreakFrom, if_pos (by simp [breakAt, h1, h2])]
        rw [lastIndexFrom, if_neg h1, lastIndexFrom, if_pos h2]
        cases hy : lastIndexFrom w nlnlPat m with
        | none => simp [maxBreak]
        | some y =>
          have := lastIndexFrom_le w nlnlPat m y hy
          simp [maxBreak]
          omega
      · rw [lastBreakFrom, if_neg (by simp [breakAt, h1, h2])]
        rw [lastIndexFrom, if_neg h1, lastIndexFrom, if_neg h2]
        exact ih

theorem lastBreakSpec_eq (w : Str) :
    lastBreakSpec w = maxBreak (lastIndexOfPat w nlnlPat) (lastIndexOfPat w dotSpacePat) := by
  rw [lastBreakSpec, lastIndexOfPat, lastIndexOfPat]
  cases hl : w.length with
  | zero =>
    by_cases h1 : leadsWith nlnlPat w
    · by_cases h2 : leadsWith dotSpacePat w
      · simp [breakAt, maxBreak, List.drop_zero, h1, h2]
      · simp [breakAt, maxBreak, List.drop_zero, h1, h2]
    · by_cases h2 : leadsWith dotSpacePat w
      · simp [breakAt, maxBreak, List.drop_zero, h1, h2]
      · simp [breakAt, maxBreak, List.drop_zero, h1, h2]
  | succ n => exact lastBreakFrom_eq w n

theorem chunkStep_eq_claimStepStrict (s : Str) (mx start : Nat) :
    chunkStep s mx start = claimStepStrict s mx start := by
  rw [chunkStep, claimStepStrict]
  simp only [lastBreakSpec_eq]

theorem chunkifyGo_eq_claimGoStrict (s : Str) (mx : Nat) :
    ∀ fuel start, chunkifyGo s mx fuel start = claimGoStrict s mx fuel start := by
  intro fuel
  induction fuel with
  | zero => intro start; rfl
  | succ f ih =>
    intro start
    rw [chunkifyGo, claimGoStrict]
    by_cases hs : start < s.length
    · rw [if_pos hs, if_pos hs, chunkStep_eq_claimStepStrict]
      simp only [ih]
    · rw [if_neg hs, if_neg hs]

/-- C6 (amended): the splitter behaves exactly as the claim describes —
cursor steps of at most `maxChars`, cutting at the last double-newline or
period-plus-space of the window when its offset exceeds 200, trimming
each segment and discarding empties — except that the breakpoint rule is
applied only when the window's hard boundary falls strictly before the
end of the text; a final window, even one of exactly `maxChars`
characters, is emitted whole. -/
theorem claim_C6_amended :
    ∀ (s : Str) (mx : Nat), chunkify s mx = claimChunkifyStrict s mx := by
  intro s mx
  rw [chunkify, claimChunkifyStrict, chunkifyGo_eq_claimGoStrict]

/-- C8: running the transaction parser on the single-line table text
`01/15 Coffee Shop -$4.50` (for which signed-amount format is detected)
yields exactly one Transaction with date `01/15`, type debit, amount
4.50, and description `Coffee Shop`. -/
theorem claim_C8_transaction_parser_scenario :
    (extractTransactionsFromTable "01/15 Coffee Shop -$4.50".data).map
        (fun t => (t.date, t.type, t.amount, t.description)) =
      [("01/15".data, TType.debit, mkRat 9 2, "Coffee Shop".data)] ∧
    (detectTransactionFormat "01/15 Coffee Shop -$4.50".data).hasSignedAmounts = true := by
  decide

/-- C1 (code bug): for a payload that carries only a parsed document (one
page, one non-blank text fragment; empty html and text), the entry point
`handleSegment` does **not** select the parsed-document path: it answers
through the plain-text path with an empty chunk list, while
`extractFromParsedDocument` on the same document (at the same sanitized
default `max`) produces the non-empty chunk sequence the README and spec
promise. -/
theorem claim_C1_entry_point_ignores_parsed_document :
    okChunks (handleSegment trivialHtmlCap payloadParsedOnly) = some [[]] ∧
    (extractFromParsedDocument docParsedOnly (sanitizeMax none)).chunks.map Chunk.chunk_text =
      ["hello world".data] := by
  decide

/-- C3 counterexample: the parsed-document fallback over an empty
pre-chunked `chunks` array emits one chunk whose `chunk_text` is empty
(so its trimmed text is empty), contradicting the claim that no emitted
chunk has empty trimmed text. -/
theorem claim_C3_counterexample :
    (extractFromParsedDocument docEmptyChunks 12000).chunks.map
        (fun c => (c.chunk_text, c.char_len)) = [([], 0)] := by
  decide

/-- C2 counterexample: with `maxChars = 30`, a 10-character page and a
20-character page are consolidated into a single chunk (the size check
excludes the 22-character page-break marker), so the emitted chunk has
`char_len` 52 > 30; under the claim's marker-inclusive rule the second
page would have been flushed into its own chunk. -/
theorem claim_C2_counterexample :
    (extractFromParsedDocument docTwoPages 30).chunks.map
        (fun c => (c.char_len, c.page_range)) = [(52, some "1-2".data)] ∧ 30 < 52 := by
  decide

/-- C4 counterexample: a table fragment whose analyzed metadata has
`has_transactions = false` (a lone `description` header) is skipped
entirely by the page loop, and with two date headers the later fragment
overwrites the earlier one (last-wins) — both contradicting the §3 rule
(first-wins, applied to every table fragment) that the claim states. -/
theorem claim_C4_counterexample :
    (extractPageContent [fragDateA, fragDateB]).2.date_column = some "date b".data ∧
    (specFragmentFold [fragDateA, fragDateB]).date_column = some "date a".data ∧
    (extractPageContent [fragDescOnly]).2.description_column = none ∧
    (specFragmentFold [fragDescOnly]).description_column = some "description".data := by
  decide

set_option maxRecDepth 100000 in
/-- C6 counterexample: on a 420-character text with `maxChars = 210`, the
second window is exactly 210 characters and ends at the end of the text;
it holds a period-space breakpoint at offset 205 > 200, so the claim as
stated cuts there (three segments), while the source applies the
breakpoint rule only when the window ends strictly before the end of the
text and emits the remainder whole (two segments). -/
theorem claim_C6_counterexample :
    (chunkify strFinalWindow 210).map List.length = [210, 210] ∧
    (claimChunkifyAsStated strFinalWindow 210).map List.length = [210, 206, 3] := by
  decide

/-! ### C4: the fragment-metadata merge -/

theorem fragStep_snd (c : Str) (m : Metadata) (f : Fragment) :
    (fragStep (c, m) f).2 =
      (if f.fragment_type = "table".data then
        codeMergeFragment m (analyzeTableStructure (fragCells f) (fragTableContent f))
          (countDateLines (fragTableContent f))
      else m) := by
  by_cases ht : f.fragment_type = "table".data
  · rw [if_pos ht]
    simp only [fragStep, if_pos ht, codeMergeFragment, fragCells, fragTableContent,
      countDateLines]
  · rw [if_neg ht]
    simp only [fragStep, if_neg ht]
    by_cases htx : f.fragment_type = "text".data
    · simp only [if_pos htx]
      split
      · rfl
      · rfl
    · simp only [if_neg htx]

theorem foldl_fragStep_snd (l : List Fragment) :
    ∀ (c : Str) (m : Metadata),
      (l.foldl fragStep (c, m)).2 =
        l.foldl (fun m f =>
          if f.fragment_type = "table".data then
            codeMergeFragment m (analyzeTableStructure (fragCells f) (fragTableContent f))
              (countDateLines (fragTableContent f))
          else m) m := by
  induction l with
  | nil => intro c m; rfl
  | cons f l' ih =>
    intro c m
    simp only [List.foldl_cons]
    rw [show fragStep (c, m) f = ((fragStep (c, m) f).1, (fragStep (c, m) f).2) from rfl,
      fragStep_snd]
    exact ih _ _

/-- C4 (amended): the page loop's metadata accumulator equals a fold of
the per-fragment merge rule over the reading-order-sorted fragments —
where the rule differs from §3 in two ways: a table fragment whose
analyzed metadata lacks `has_transactions` contributes nothing at all,
and `date_column`/`description_column` are overwritten by later
fragments (last-wins); columns are still deduplicated set unions,
`has_transactions` a logical OR, and the date-line count a running sum. -/
theorem claim_C4_amended :
    ∀ frags, (extractPageContent frags).2 = codeFragmentFold frags := by
  intro frags
  simp only [extractPageContent, codeFragmentFold]
  exact foldl_fragStep_snd (sortByRO frags) [] initMetadata

/-! ### C5: contiguous numbering and total counts -/

theorem range'_push (n : Nat) : List.range' 1 n ++ [n + 1] = List.range' 1 (n + 1) := by
  rw [List.range'_concat]
  simp [Nat.add_comm]

theorem pushSegs_numbering (t : Bool) (segs : List Str) :
    ∀ (acc : List Chunk × Nat),
      acc.1.map Chunk.chunk_number = List.range' 1 acc.1.length →
      acc.2 = acc.1.length + 1 →
      (pushSegs t acc segs).1.map Chunk.chunk_number =
          List.range' 1 (pushSegs t acc segs).1.length ∧
      (pushSegs t acc segs).2 = (pushSegs t acc segs).1.length + 1 := by
  induction segs with
  | nil => intro acc h1 h2; exact ⟨h1, h2⟩
  | cons seg rest ih =>
    intro acc h1 h2
    have hstep : pushSegs t acc (seg :: rest) =
        pushSegs t (acc.1 ++ [mkPathChunk acc.2 t seg], acc.2 + 1) rest := by
      rw [pushSegs, pushSegs, List.foldl_cons]
    rw [hstep]
    apply ih
    · simp only [List.map_append, List.length_append, List.map_cons, List.map_nil]
      rw [h1, h2]
      simpa [mkPathChunk] using range'_push acc.1.length
    · simp only [List.length_append, List.length_cons, List.length_nil]
      omega

theorem map_setTotal_number (cs : List Chunk) (n : Nat) :
    (cs.map (fun c => { c with total_chunks := some n })).map Chunk.chunk_number =
      cs.map Chunk.chunk_number := by
  induction cs with
  | nil => rfl
  | cons c t ih => simp only [List.map_cons, ih]

theorem map_setTotal_total (cs : List Chunk) (n : Nat) :
    (cs.map (fun c => { c with total_chunks := some n })).map Chunk.total_chunks =
      List.replicate cs.length (some n) := by
  induction cs with
  | nil => rfl
  | cons c t ih => simp only [List.map_cons, ih, List.length_cons, List.replicate_succ]

theorem extractFromText_numbering (text : Str) (mx : Nat) :
    (extractFromText text mx).chunks.map Chunk.chunk_number =
        List.range' 1 (extractFromText text mx).chunks.length ∧
    (extractFromText text mx).chunks.map Chunk.total_chunks =
        List.replicate (extractFromText text mx).chunks.length
          (some (extractFromText text mx).chunks.length) := by
  simp only [extractFromText]
  have hfold :
      ∀ (bs : List Block) (acc : List Chunk × Nat),
        acc.1.map Chunk.chunk_number = List.range' 1 acc.1.length →
        acc.2 = acc.1.length + 1 →
        (bs.foldl (fun acc b => pushSegs (b.type = BlockType.table) acc (chunkify b.content mx))
            acc).1.map Chunk.chunk_number =
          List.range' 1 (bs.foldl (fun acc b =>
            pushSegs (b.type = BlockType.table) acc (chunkify b.content mx)) acc).1.length := by
    intro bs
    induction bs with
    | nil => intro acc h1 h2; exact h1
    | cons b rest ih =>
      intro acc h1 h2
      rw [List.foldl_cons]
      have hp := pushSegs_numbering (b.type = BlockType.table) (chunkify b.content mx) acc h1 h2
      exact ih _ hp.1 hp.2
  refine ⟨?_, ?_⟩
  · rw [map_setTotal_number]
    have := hfold (splitTableLikeBlocks text) ([], 1) (by simp) (by simp)
    simpa [List.length_map] using this
  · rw [map_setTotal_total]
    simp [List.length_map]

theorem extractFromHtml_numbering (doc : HtmlDoc) (mx : Nat) :
    (extractFromHtml doc mx).chunks.map Chunk.chunk_number =
        List.range' 1 (extractFromHtml doc mx).chunks.length ∧
    (extractFromHtml doc mx).chunks.map Chunk.total_chunks =
        List.replicate (extractFromHtml doc mx).chunks.length
          (some (extractFromHtml doc mx).chunks.length) := by
  simp only [extractFromHtml]
  have hr1 :
      (if trim (collapseWS doc.text) ≠ [] then
          pushSegs false ([], 1) (chunkify (trim (collapseWS doc.text)) mx)
        else ([], 1)).1.map Chunk.chunk_number =
        List.range' 1 (if trim (collapseWS doc.text) ≠ [] then
          pushSegs false ([], 1) (chunkify (trim (collapseWS doc.text)) mx)
        else ([], 1)).1.length ∧
      (if trim (collapseWS doc.text) ≠ [] then
          pushSegs false ([], 1) (chunkify (trim (collapseWS doc.text)) mx)
        else ([], 1)).2 = (if trim (collapseWS doc.text) ≠ [] then
          pushSegs false ([], 1) (chunkify (trim (collapseWS doc.text)) mx)
        else ([], 1)).1.length + 1 := by
    split
    · exact pushSegs_numbering _ _ ([], 1) (by simp) (by simp)
    · exact ⟨by simp, by simp⟩
  have hfold :
      ∀ (ts : List Str) (acc : List Chunk × Nat),
        acc.1.map Chunk.chunk_number = List.range' 1 acc.1.length →
        acc.2 = acc.1.length + 1 →
        (ts.foldl (fun acc t => pushSegs true acc (chunkify t mx)) acc).1.map
            Chunk.chunk_number =
          List.range' 1 (ts.foldl (fun acc t =>
            pushSegs true acc (chunkify t mx)) acc).1.length := by
    intro ts
    induction ts with
    | nil => intro acc h1 h2; exact h1
    | cons t rest ih =>
      intro acc h1 h2
      rw [List.foldl_cons]
      have hp := pushSegs_numbering true (chunkify t mx) acc h1 h2
      exact ih _ hp.1 hp.2
  refine ⟨?_, ?_⟩
  · rw [map_setTotal_number]
    have := hfold (htmlTables doc) _ hr1.1 hr1.2
    simpa [List.length_map] using this
  · rw [map_setTotal_total]
    simp [List.length_map]

theorem flushChunk_number (bank : Str) (st : ConsState) :
    (flushChunk bank st).chunk_number = st.idx := rfl

theorem pageBranch_numbering (bank : Str) (mx : Nat) (st : ConsState) (pc : Str)
    (pm : Metadata) (pn : Nat)
    (h1 : st.chunks.map Chunk.chunk_number = List.range' 1 st.chunks.length)
    (h2 : st.idx = st.chunks.length + 1) :
    (pageBranch bank mx st pc pm pn).chunks.map Chunk.chunk_number =
      List.range' 1 (pageBranch bank mx st pc pm pn).chunks.length ∧
    (pageBranch bank mx st pc pm pn).idx = (pageBranch bank mx st pc pm pn).chunks.length + 1 := by
  simp only [pageBranch]
  split
  · exact ⟨h1, h2⟩
  · split
    · exact ⟨h1, h2⟩
    · refine ⟨?_, ?_⟩
      · simp only [List.map_append, List.length_append, List.map_cons, List.map_nil,
          List.length_cons, List.length_nil, flushChunk_number]
        rw [h1, h2]
        simpa using range'_push st.chunks.length
      · simp only [List.length_append, List.length_cons, List.length_nil]
        omega

theorem processPage_none (bank : Str) (mx : Nat) (st : ConsState) (p : Page) (i : Nat)
    (isLast : Bool) (hpf : p.page_fragments = none) :
    processPage bank mx st p i isLast = st := by
  simp only [processPage, hpf]

theorem processPage_some (bank : Str) (mx : Nat) (st : ConsState) (p : Page) (i : Nat)
    (isLast : Bool) (frags : List Fragment) (hpf : p.page_fragments = some frags) :
    processPage bank mx st p i isLast =
      (if isLast && trim (pageBranch bank mx st (extractPageContent frags).1
            (extractPageContent frags).2 (pageNumOr p i)).cur ≠ [] then
        { pageBranch bank mx st (extractPageContent frags).1
            (extractPageContent frags).2 (pageNumOr p i) with
          chunks := (pageBranch bank mx st (extractPageContent frags).1
              (extractPageContent frags).2 (pageNumOr p i)).chunks ++
            [flushChunk bank (pageBranch bank mx st (extractPageContent frags).1
              (extractPageContent frags).2 (pageNumOr p i))] }
      else pageBranch bank mx st (extractPageContent frags).1
        (extractPageContent frags).2 (pageNumOr p i)) := by
  simp only [processPage, hpf]

theorem processPage_not_last (bank : Str) (mx : Nat) (st : ConsState) (p : Page) (i : Nat)
    (h1 : st.chunks.map Chunk.chunk_number = List.range' 1 st.chunks.length)
    (h2 : st.idx = st.chunks.length + 1) :
    (processPage bank mx st p i false).chunks.map Chunk.chunk_number =
      List.range' 1 (processPage bank mx st p i false).chunks.length ∧
    (processPage bank mx st p i false).idx =
      (processPage bank mx st p i false).chunks.length + 1 := by
  cases hpf : p.page_fragments with
  | none =>
    rw [processPage_none bank mx st p i false hpf]
    exact ⟨h1, h2⟩
  | some frags =>
    rw [processPage_some bank mx st p i false frags hpf]
    simp only [Bool.false_and, Bool.false_eq_true, if_false]
    exact pageBranch_numbering bank mx st _ _ _ h1 h2

theorem processPage_last (bank : Str) (mx : Nat) (st : ConsState) (p : Page) (i : Nat)
    (h1 : st.chunks.map Chunk.chunk_number = List.range' 1 st.chunks.length)
    (h2 : st.idx = st.chunks.length + 1) :
    (processPage bank mx st p i true).chunks.map Chunk.chunk_number =
      List.range' 1 (processPage bank mx st p i true).chunks.length ∧
    ((processPage bank mx st p i true).chunks = [] →
      (processPage bank mx st p i true).idx = 1) := by
  cases hpf : p.page_fragments with
  | none =>
    rw [processPage_none bank mx st p i true hpf]
    refine ⟨h1, fun hnil => ?_⟩
    rw [h2, hnil]
    rfl
  | some frags =>
    rw [processPage_some bank mx st p i true frags hpf]
    simp only [Bool.true_and]
    have h' := pageBranch_numbering bank mx st (extractPageContent frags).1
      (extractPageContent frags).2 (pageNumOr p i) h1 h2
    set st2 := pageBranch bank mx st (extractPageContent frags).1
      (extractPageContent frags).2 (pageNumOr p i) with hst2
    split
    · refine ⟨?_, fun hnil => ?_⟩
      · simp only [List.map_append, List.length_append, List.map_cons, List.map_nil,
          List.length_cons, List.length_nil, flushChunk_number]
        rw [h'.1, h'.2]
        simpa using range'_push st2.chunks.length
      · exfalso
        simp at hnil
    · exact ⟨h'.1, fun hnil => by rw [h'.2, hnil]; rfl⟩

theorem consGo_numbering (bank : Str) (mx : Nat) :
    ∀ (pages : List Page) (st : ConsState) (i : Nat),
      st.chunks.map Chunk.chunk_number = List.range' 1 st.chunks.length →
      st.idx = st.chunks.length + 1 →
      (consGo bank mx st pages i).chunks.map Chunk.chunk_number =
        List.range' 1 (consGo bank mx st pages i).chunks.length ∧
      ((consGo bank mx st pages i).chunks = [] → (consGo bank mx st pages i).idx = 1) := by
  intro pages
  induction pages with
  | nil =>
    intro st i h1 h2
    exact ⟨h1, fun hnil => by rw [consGo] at *; rw [h2, hnil]; rfl⟩
  | cons p rest ih =>
    intro st i h1 h2
    rw [consGo]
    by_cases hre : rest = []
    · subst hre
      have hf : ([] : List Page).isEmpty = true := rfl
      rw [hf, consGo]
      exact processPage_last bank mx st p i h1 h2
    · have hf : rest.isEmpty = false := by
        cases rest with
        | nil => exact absurd rfl hre
        | cons a b => rfl
      rw [hf]
      have hn := processPage_not_last bank mx st p i h1 h2
      exact ih (processPage bank mx st p i false) (i + 1) hn.1 hn.2

theorem numberSegs_map_num (bank : Str) :
    ∀ (segs : List Str) (i : Nat),
      (numberSegs bank i segs).map Chunk.chunk_number = List.range' i segs.length := by
  intro segs
  induction segs with
  | nil => intro i; rfl
  | cons seg rest ih =>
    intro i
    rw [numberSegs]
    simp only [List.map_cons, List.length_cons, ih (i + 1), List.range'_succ]

theorem numberSegs_length_aux (bank : Str) :
    ∀ (segs : List Str) (i : Nat), (numberSegs bank i segs).length = segs.length := by
  intro segs
  induction segs with
  | nil => intro i; rfl
  | cons seg rest ih =>
    intro i
    rw [numberSegs]
    simp [ih]

theorem fallbackChunks_numbering (bank : Str) (mx : Nat) (dcs : List DocChunk) :
    (fallbackChunks bank mx 1 dcs).map Chunk.chunk_number =
      List.range' 1 (fallbackChunks bank mx 1 dcs).length := by
  rw [fallbackChunks]
  split
  · rfl
  · rw [numberSegs_map_num, numberSegs_length_aux]

theorem extractFromParsedDocument_numbering (doc : ParsedDoc) (mx : Nat) :
    (extractFromParsedDocument doc mx).chunks.map Chunk.chunk_number =
        List.range' 1 (extractFromParsedDocument doc mx).chunks.length ∧
    (extractFromParsedDocument doc mx).chunks.map Chunk.total_chunks =
        List.replicate (extractFromParsedDocument doc mx).chunks.length
          (some (extractFromParsedDocument doc mx).chunks.length) := by
  simp only [extractFromParsedDocument]
  set st := (match doc.pages with
    | some pages => consGo (bankNameOfDoc doc) mx initConsState pages 0
    | none => initConsState) with hst
  have hstInv : st.chunks.map Chunk.chunk_number = List.range' 1 st.chunks.length ∧
      (st.chunks = [] → st.idx = 1) := by
    rw [hst]
    cases doc.pages with
    | none => exact ⟨rfl, fun _ => rfl⟩
    | some pages => exact consGo_numbering (bankNameOfDoc doc) mx pages initConsState 0 rfl rfl
  set cs := (if st.chunks.length = 0 then
      match doc.chunks with
      | some dcs => fallbackChunks (bankNameOfDoc doc) mx st.idx dcs
      | none => st.chunks
    else st.chunks) with hcs
  have hcsNum : cs.map Chunk.chunk_number = List.range' 1 cs.length := by
    rw [hcs]
    split
    · next hz =>
      have hnil : st.chunks = [] := List.length_eq_zero.mp hz
      cases doc.chunks with
      | none => rw [hnil]; rfl
      | some dcs =>
        rw [hstInv.2 hnil]
        exact fallbackChunks_numbering (bankNameOfDoc doc) mx dcs
    · exact hstInv.1
  refine ⟨?_, ?_⟩
  · rw [map_setTotal_number]
    simpa [List.length_map] using hcsNum
  · rw [map_setTotal_total]
    simp [List.length_map]

/-- C5: on each of the three extraction paths, the emitted chunk_number
values are exactly the contiguous sequence 1..N in emission order, and
every chunk's total_chunks field is set to N, the final sequence
length. -/
theorem claim_C5_numbering_and_totals :
    (∀ (text : Str) (mx : Nat),
      (extractFromText text mx).chunks.map Chunk.chunk_number =
          List.range' 1 (extractFromText text mx).chunks.length ∧
      (extractFromText text mx).chunks.map Chunk.total_chunks =
          List.replicate (extractFromText text mx).chunks.length
            (some (extractFromText text mx).chunks.length)) ∧
    (∀ (doc : HtmlDoc) (mx : Nat),
      (extractFromHtml doc mx).chunks.map Chunk.chunk_number =
          List.range' 1 (extractFromHtml doc mx).chunks.length ∧
      (extractFromHtml doc mx).chunks.map Chunk.total_chunks =
          List.replicate (extractFromHtml doc mx).chunks.length
            (some (extractFromHtml doc mx).chunks.length)) ∧
    (∀ (doc : ParsedDoc) (mx : Nat),
      (extractFromParsedDocument doc mx).chunks.map Chunk.chunk_number =
          List.range' 1 (extractFromParsedDocument doc mx).chunks.length ∧
      (extractFromParsedDocument doc mx).chunks.map Chunk.total_chunks =
          List.replicate (extractFromParsedDocument doc mx).chunks.length
            (some (extractFromParsedDocument doc mx).chunks.length)) :=
  ⟨extractFromText_numbering, extractFromHtml_numbering, extractFromParsedDocument_numbering⟩

/-! ### C3: chunk text and length invariants -/

theorem mem_of_getLastQ : ∀ (l : List Block) (a : Block), l.getLast? = some a → a ∈ l := by
  intro l
  induction l with
  | nil => intro a h; simp at h
  | cons x t ih =>
    intro a h
    cases t with
    | nil =>
      simp [List.getLast?_singleton] at h
      simp [h]
    | cons y t' =>
      rw [List.getLast?_cons_cons] at h
      exact List.mem_cons_of_mem x (ih a h)

theorem flushState_eq (st : SplitState) :
    flushState st =
      if st.buf = [] then st
      else if trim (joinSep ['\n'] st.buf) = [] then { st with buf := [] }
      else
        { st with
          buf := []
          blocks := st.blocks ++
            [⟨st.curType.getD BlockType.text, trim (joinSep ['\n'] st.buf)⟩] } := rfl

theorem flushState_good (st : SplitState)
    (h : ∀ b ∈ st.blocks, trim b.content = b.content ∧ b.content ≠ []) :
    ∀ b ∈ (flushState st).blocks, trim b.content = b.content ∧ b.content ≠ [] := by
  intro b hb
  rw [flushState_eq] at hb
  split at hb
  · exact h b hb
  · split at hb
    · next hc => exact h b hb
    · next hc =>
      simp only [] at hb
      rcases List.mem_append.mp hb with h1 | h2
      · exact h b h1
      · simp at h2
        subst h2
        exact ⟨trim_idem _, hc⟩

theorem classifyLine_good (st : SplitState) (l : Str)
    (h : ∀ b ∈ st.blocks, trim b.content = b.content ∧ b.content ≠ []) :
    ∀ b ∈ (classifyLine st l).blocks, trim b.content = b.content ∧ b.content ≠ [] := by
  intro b hb
  rw [classifyLine] at hb
  split at hb
  · exact h b hb
  · split at hb
    · exact h b hb
    · exact flushState_good st h b hb

theorem classifyFold_good (lines : List Str) :
    ∀ (st : SplitState),
      (∀ b ∈ st.blocks, trim b.content = b.content ∧ b.content ≠ []) →
      ∀ b ∈ (lines.foldl classifyLine st).blocks,
        trim b.content = b.content ∧ b.content ≠ [] := by
  induction lines with
  | nil => intro st h; exact h
  | cons l rest ih =>
    intro st h
    rw [List.foldl_cons]
    exact ih _ (classifyLine_good st l h)

theorem mergeBlocks_good (blocks : List Block)
    (h : ∀ b ∈ blocks, trim b.content = b.content ∧ b.content ≠ []) :
    ∀ b ∈ mergeBlocks blocks, trim b.content = b.content ∧ b.content ≠ [] := by
  rw [mergeBlocks]
  have main : ∀ (bs : List Block) (acc : List Block),
      (∀ b ∈ bs, trim b.content = b.content ∧ b.content ≠ []) →
      (∀ b ∈ acc, trim b.content = b.content ∧ b.content ≠ []) →
      ∀ b ∈ bs.foldl (fun merged b =>
        match merged.getLast? with
        | some prev =>
          if prev.type = b.type && prev.content.length + b.content.length < 2000 then
            merged.dropLast ++ [⟨prev.type, prev.content ++ '\n' :: b.content⟩]
          else merged ++ [b]
        | none => merged ++ [b]) acc,
        trim b.content = b.content ∧ b.content ≠ [] := by
    intro bs
    induction bs with
    | nil => intro acc hbs hacc; exact hacc
    | cons x rest ih =>
      intro acc hbs hacc
      rw [List.foldl_cons]
      apply ih
      · intro b hb; exact hbs b (List.mem_cons_of_mem x hb)
      · intro b hb
        have hx := hbs x (List.mem_cons_self x rest)
        split at hb
        · next prev hprev =>
          split at hb
          · rcases List.mem_append.mp hb with h1 | h2
            · exact hacc b (List.dropLast_subset _ h1)
            · simp at h2
              subst h2
              have hpg := hacc prev (mem_of_getLastQ acc prev hprev)
              exact ⟨trim_append_block _ _ _ hpg.1 hpg.2 hx.1 hx.2,
                by simp [hpg.2]⟩
          · rcases List.mem_append.mp hb with h1 | h2
            · exact hacc b h1
            · simp at h2; subst h2; exact hx
        · rcases List.mem_append.mp hb with h1 | h2
          · exact hacc b h1
          · simp at h2; subst h2; exact hx
  exact main blocks [] h (by simp)

theorem splitTableLikeBlocks_good (text : Str) :
    ∀ b ∈ splitTableLikeBlocks text, trim b.content = b.content ∧ b.content ≠ [] := by
  rw [splitTableLikeBlocks]
  exact mergeBlocks_good _ (flushState_good _ (classifyFold_good _ _ (by simp)))

theorem pushSegs_goodness (t : Bool) (segs : List Str)
    (hsegs : ∀ seg ∈ segs, trim seg = seg ∧ seg ≠ []) :
    ∀ (acc : List Chunk × Nat),
      (∀ c ∈ acc.1, c.char_len = c.chunk_text.length ∧
        trim c.chunk_text = c.chunk_text ∧ c.chunk_text ≠ []) →
      ∀ c ∈ (pushSegs t acc segs).1,
        c.char_len = c.chunk_text.length ∧
        trim c.chunk_text = c.chunk_text ∧ c.chunk_text ≠ [] := by
  induction segs with
  | nil => intro acc hacc; exact hacc
  | cons seg rest ih =>
    intro acc hacc
    have hstep : pushSegs t acc (seg :: rest) =
        pushSegs t (acc.1 ++ [mkPathChunk acc.2 t seg], acc.2 + 1) rest := by
      rw [pushSegs, pushSegs, List.foldl_cons]
    rw [hstep]
    apply ih (fun s hs => hsegs s (List.mem_cons_of_mem seg hs))
    intro c hc
    rcases List.mem_append.mp hc with h1 | h2
    · exact hacc c h1
    · simp at h2
      subst h2
      have hgood := hsegs seg (List.mem_cons_self seg rest)
      exact ⟨rfl, hgood.1, hgood.2⟩

theorem extractFromText_good (text : Str) (mx : Nat) :
    ∀ c ∈ (extractFromText text mx).chunks,
      c.char_len = c.chunk_text.length ∧
      trim c.chunk_text = c.chunk_text ∧ c.chunk_text ≠ [] := by
  simp only [extractFromText]
  intro c hc
  rcases List.mem_map.mp hc with ⟨c0, hc0, rfl⟩
  have hfold : ∀ (bs : List Block)
      (hbs : ∀ b ∈ bs, trim b.content = b.content ∧ b.content ≠ [])
      (acc : List Chunk × Nat),
      (∀ c ∈ acc.1, c.char_len = c.chunk_text.length ∧
        trim c.chunk_text = c.chunk_text ∧ c.chunk_text ≠ []) →
      ∀ c ∈ (bs.foldl (fun acc b =>
          pushSegs (b.type = BlockType.table) acc (chunkify b.content mx)) acc).1,
        c.char_len = c.chunk_text.length ∧
        trim c.chunk_text = c.chunk_text ∧ c.chunk_text ≠ [] := by
    intro bs
    induction bs with
    | nil => intro hbs acc hacc; exact hacc
    | cons b rest ih =>
      intro hbs acc hacc
      rw [List.foldl_cons]
      apply ih (fun x hx => hbs x (List.mem_cons_of_mem b hx))
      have hb := hbs b (List.mem_cons_self b rest)
      exact pushSegs_goodness _ _ (chunkify_mem_good b.content mx hb.1) acc hacc
  exact hfold (splitTableLikeBlocks text) (splitTableLikeBlocks_good text) ([], 1)
    (by simp) c0 hc0

theorem htmlTables_good (doc : HtmlDoc) :
    ∀ t ∈ htmlTables doc, trim t = t ∧ t ≠ [] := by
  intro t ht
  rw [htmlTables] at ht
  have hm := List.mem_filter.mp ht
  rcases List.mem_map.mp hm.1 with ⟨rows, _, heq⟩
  refine ⟨?_, by simpa using hm.2⟩
  rw [← heq]
  exact trim_idem _

theorem extractFromHtml_good (doc : HtmlDoc) (mx : Nat) :
    ∀ c ∈ (extractFromHtml doc mx).chunks,
      c.char_len = c.chunk_text.length ∧
      trim c.chunk_text = c.chunk_text ∧ c.chunk_text ≠ [] := by
  simp only [extractFromHtml]
  intro c hc
  rcases List.mem_map.mp hc with ⟨c0, hc0, rfl⟩
  have hr1 : ∀ c ∈ (if trim (collapseWS doc.text) ≠ [] then
      pushSegs false ([], 1) (chunkify (trim (collapseWS doc.text)) mx)
    else (([] : List Chunk), 1)).1,
      c.char_len = c.chunk_text.length ∧
      trim c.chunk_text = c.chunk_text ∧ c.chunk_text ≠ [] := by
    split
    · exact pushSegs_goodness _ _
        (chunkify_mem_good _ mx (trim_idem _)) ([], 1) (by simp)
    · simp
  have hfold : ∀ (ts : List Str)
      (hts : ∀ t ∈ ts, trim t = t ∧ t ≠ [])
      (acc : List Chunk × Nat),
      (∀ c ∈ acc.1, c.char_len = c.chunk_text.length ∧
        trim c.chunk_text = c.chunk_text ∧ c.chunk_text ≠ []) →
      ∀ c ∈ (ts.foldl (fun acc t => pushSegs true acc (chunkify t mx)) acc).1,
        c.char_len = c.chunk_text.length ∧
        trim c.chunk_text = c.chunk_text ∧ c.chunk_text ≠ [] := by
    intro ts
    induction ts with
    | nil => intro hts acc hacc; exact hacc
    | cons t rest ih =>
      intro hts acc hacc
      rw [List.foldl_cons]
      apply ih (fun x hx => hts x (List.mem_cons_of_mem t hx))
      have htg := hts t (List.mem_cons_self t rest)
      exact pushSegs_goodness _ _ (chunkify_mem_good t mx htg.1) acc hacc
  exact hfold (htmlTables doc) (htmlTables_good doc) _ hr1 c0 hc0

theorem pageBranch_clen (bank : Str) (mx : Nat) (st : ConsState) (pc : Str)
    (pm : Metadata) (pn : Nat)
    (h : ∀ c ∈ st.chunks, c.char_len = c.chunk_text.length) :
    ∀ c ∈ (pageBranch bank mx st pc pm pn).chunks, c.char_len = c.chunk_text.length := by
  simp only [pageBranch]
  split
  · exact h
  · split
    · exact h
    · intro c hc
      rcases List.mem_append.mp hc with h1 | h2
      · exact h c h1
      · simp at h2
        subst h2
        rfl

theorem processPage_clen (bank : Str) (mx : Nat) (st : ConsState) (p : Page) (i : Nat)
    (isLast : Bool) (h : ∀ c ∈ st.chunks, c.char_len = c.chunk_text.length) :
    ∀ c ∈ (processPage bank mx st p i isLast).chunks, c.char_len = c.chunk_text.length := by
  cases hpf : p.page_fragments with
  | none =>
    rw [processPage_none bank mx st p i isLast hpf]
    exact h
  | some frags =>
    rw [processPage_some bank mx st p i isLast frags hpf]
    have hb := pageBranch_clen bank mx st (extractPageContent frags).1
      (extractPageContent frags).2 (pageNumOr p i) h
    split
    · intro c hc
      rcases List.mem_append.mp hc with h1 | h2
      · exact hb c h1
      · simp at h2
        subst h2
        rfl
    · exact hb

theorem consGo_clen (bank : Str) (mx : Nat) :
    ∀ (pages : List Page) (st : ConsState) (i : Nat),
      (∀ c ∈ st.chunks, c.char_len = c.chunk_text.length) →
      ∀ c ∈ (consGo bank mx st pages i).chunks, c.char_len = c.chunk_text.length := by
  intro pages
  induction pages with
  | nil => intro st i h; exact h
  | cons p rest ih =>
    intro st i h
    rw [consGo]
    exact ih _ (i + 1) (processPage_clen bank mx st p i rest.isEmpty h)

theorem numberSegs_clen (bank : Str) :
    ∀ (segs : List Str) (i : Nat),
      ∀ c ∈ numberSegs bank i segs, c.char_len = c.chunk_text.length := by
  intro segs
  induction segs with
  | nil => intro i c hc; simp [numberSegs] at hc
  | cons seg rest ih =>
    intro i c hc
    rw [numberSegs] at hc
    rcases List.mem_cons.mp hc with h1 | h2
    · subst h1; rfl
    · exact ih (i + 1) c h2

theorem fallbackChunks_clen (bank : Str) (mx idx : Nat) (dcs : List DocChunk) :
    ∀ c ∈ fallbackChunks bank mx idx dcs, c.char_len = c.chunk_text.length := by
  rw [fallbackChunks]
  split
  · intro c hc
    simp at hc
    subst hc
    rfl
  · exact numberSegs_clen bank _ idx

theorem extractFromParsedDocument_clen (doc : ParsedDoc) (mx : Nat) :
    ∀ c ∈ (extractFromParsedDocument doc mx).chunks, c.char_len = c.chunk_text.length := by
  simp only [extractFromParsedDocument]
  intro c hc
  rcases List.mem_map.mp hc with ⟨c0, hc0, rfl⟩
  show c0.char_len = c0.chunk_text.length
  have hst : ∀ c ∈ (match doc.pages with
      | some pages => consGo (bankNameOfDoc doc) mx initConsState pages 0
      | none => initConsState).chunks, c.char_len = c.chunk_text.length := by
    cases doc.pages with
    | none => intro c hc; simp [initConsState] at hc
    | some pages =>
      exact consGo_clen (bankNameOfDoc doc) mx pages initConsState 0
        (by intro c hc; simp [initConsState] at hc)
  revert hc0
  split
  · cases doc.chunks with
    | none => exact fun hc0 => hst c0 hc0
    | some dcs => exact fun hc0 => fallbackChunks_clen (bankNameOfDoc doc) mx _ dcs c0 hc0
  · exact fun hc0 => hst c0 hc0

/-- C3 (amended): every emitted chunk's `char_len` equals the character
count of the stored `chunk_text`; on the HTML and plain-text paths the
stored text is moreover already trimmed and non-empty, so `char_len` is
the trimmed character count and no chunk has empty trimmed text.  The
parsed-document path does not guarantee the trimming clause: its fallback
can emit a chunk with empty text (see the counterexample) and a
consolidated buffer can carry trailing page-break whitespace. -/
theorem claim_C3_amended :
    (∀ (doc : ParsedDoc) (mx : Nat), ∀ c ∈ (extractFromParsedDocument doc mx).chunks,
        c.char_len = c.chunk_text.length) ∧
    (∀ (text : Str) (mx : Nat), ∀ c ∈ (extractFromText text mx).chunks,
        c.char_len = c.chunk_text.length ∧
        trim c.chunk_text = c.chunk_text ∧ c.chunk_text ≠ []) ∧
    (∀ (doc : HtmlDoc) (mx : Nat), ∀ c ∈ (extractFromHtml doc mx).chunks,
        c.char_len = c.chunk_text.length ∧
        trim c.chunk_text = c.chunk_text ∧ c.chunk_text ≠ []) :=
  ⟨extractFromParsedDocument_clen, extractFromText_good, extractFromHtml_good⟩

/-- Witness for C3 (amended) at concrete inputs on all three paths. -/
theorem claim_C3_amended_witness :
    ((extractFromParsedDocument docParsedOnly 12000).chunks.headI.char_len =
      (extractFromParsedDocument docParsedOnly 12000).chunks.headI.chunk_text.length) ∧
    ((extractFromText "hello".data 12000).chunks.headI.char_len =
        (extractFromText "hello".data 12000).chunks.headI.chunk_text.length ∧
      trim (extractFromText "hello".data 12000).chunks.headI.chunk_text =
        (extractFromText "hello".data 12000).chunks.headI.chunk_text ∧
      (extractFromText "hello".data 12000).chunks.headI.chunk_text ≠ []) ∧
    ((extractFromHtml docHtmlSample 12000).chunks.headI.char_len =
        (extractFromHtml docHtmlSample 12000).chunks.headI.chunk_text.length ∧
      trim (extractFromHtml docHtmlSample 12000).chunks.headI.chunk_text =
        (extractFromHtml docHtmlSample 12000).chunks.headI.chunk_text ∧
      (extractFromHtml docHtmlSample 12000).chunks.headI.chunk_text ≠ []) :=
  ⟨claim_C3_amended.1 docParsedOnly 12000
      (extractFromParsedDocument docParsedOnly 12000).chunks.headI (by decide),
   claim_C3_amended.2.1 "hello".data 12000
      (extractFromText "hello".data 12000).chunks.headI (by decide),
   claim_C3_amended.2.2 docHtmlSample 12000
      (extractFromHtml docHtmlSample 12000).chunks.headI (by decide)⟩

/-! ### C2: the append/flush rule of the page-consolidation loop -/

theorem pageBranch_seed (bn : Str) (mx : Nat) (st : ConsState) (pc : Str)
    (pm : Metadata) (pn : Nat) (h0 : st.cur = []) :
    pageBranch bn mx st pc pm pn =
      { st with cur := pc, meta := pm, startP := pn, endP := pn } := by
  have hcond : st.cur.length = 0 := by simp [h0]
  simp only [pageBranch]
  rw [if_pos hcond]

theorem pageBranch_append (bn : Str) (mx : Nat) (st : ConsState) (pc : Str)
    (pm : Metadata) (pn : Nat) (h0 : st.cur ≠ [])
    (hle : st.cur.length + pc.length ≤ mx) :
    pageBranch bn mx st pc pm pn =
      { st with
        cur := st.cur ++ pageBreakMarker ++ pc
        endP := pn
        meta := mergeMetadata st.meta pm } := by
  have h0' : ¬ st.cur.length = 0 := fun h => h0 (List.length_eq_zero.mp h)
  have hb : decide (st.cur.length + pc.length > mx) = false :=
    decide_eq_false (Nat.not_lt.mpr hle)
  have hcond : (!decide (st.cur.length + pc.length > mx)) = true := by
    rw [hb]
    rfl
  simp only [pageBranch]
  rw [if_neg h0', if_pos hcond]

theorem pageBranch_flush (bn : Str) (mx : Nat) (st : ConsState) (pc : Str)
    (pm : Metadata) (pn : Nat) (h0 : st.cur ≠ [])
    (hgt : mx < st.cur.length + pc.length) :
    pageBranch bn mx st pc pm pn =
      { chunks := st.chunks ++ [flushChunk bn st]
        idx := st.idx + 1
        cur := pc
        meta := pm
        startP := pn
        endP := pn } := by
  have h0' : ¬ st.cur.length = 0 := fun h => h0 (List.length_eq_zero.mp h)
  have hb : decide (st.cur.length + pc.length > mx) = true := decide_eq_true hgt
  have hcond : ¬ ((!decide (st.cur.length + pc.length > mx)) = true) := by
    rw [hb]
    exact Bool.false_ne_true
  simp only [pageBranch]
  rw [if_neg h0', if_neg hcond]

theorem processPage_mid (bank : Str) (mx : Nat) (st : ConsState) (p : Page) (i : Nat)
    (frags : List Fragment) (hpf : p.page_fragments = some frags) :
    processPage bank mx st p i false =
      pageBranch bank mx st (extractPageContent frags).1 (extractPageContent frags).2
        (pageNumOr p i) := by
  rw [processPage_some bank mx st p i false frags hpf]
  simp only [Bool.false_and, Bool.false_eq_true, if_false]

theorem processPage_fin (bank : Str) (mx : Nat) (st : ConsState) (p : Page) (i : Nat)
    (frags : List Fragment) (hpf : p.page_fragments = some frags)
    (hcur : trim (pageBranch bank mx st (extractPageContent frags).1
        (extractPageContent frags).2 (pageNumOr p i)).cur ≠ []) :
    processPage bank mx st p i true =
      { pageBranch bank mx st (extractPageContent frags).1 (extractPageContent frags).2
          (pageNumOr p i) with
        chunks := (pageBranch bank mx st (extractPageContent frags).1
            (extractPageContent frags).2 (pageNumOr p i)).chunks ++
          [flushChunk bank (pageBranch bank mx st (extractPageContent frags).1
            (extractPageContent frags).2 (pageNumOr p i))] } := by
  rw [processPage_some bank mx st p i true frags hpf]
  have hcond : (true && decide (trim (pageBranch bank mx st (extractPageContent frags).1
      (extractPageContent frags).2 (pageNumOr p i)).cur ≠ [])) = true := by
    rw [decide_eq_true hcur]
    rfl
  rw [if_pos hcond]

/-- Scanners of the replicate-`a` page content: none of the footer/header
patterns matches a run of `a`s, whatever its length. -/
theorem dropWhile_ws_replicate_a (n : Nat) :
    List.dropWhile isWS (List.replicate n 'a') = List.replicate n 'a' := by
  cases n with
  | zero => rfl
  | succ n =>
    rw [List.replicate_succ]
    rfl

theorem dropEndWS_replicate_a (n : Nat) :
    dropEndWS (List.replicate n 'a') = List.replicate n 'a' := by
  induction n with
  | zero => rfl
  | succ n ih =>
    rw [List.replicate_succ]
    cases hn : List.replicate n 'a' with
    | nil => rfl
    | cons x xs =>
      rw [hn] at ih
      rw [dropEndWS_cons_of_ne 'a' (x :: xs) (by rw [ih]; exact List.cons_ne_nil _ _), ih]

theorem trim_replicate_a (n : Nat) :
    trim (List.replicate n 'a') = List.replicate n 'a' := by
  show dropEndWS ((List.replicate n 'a').dropWhile isWS) = _
  rw [dropWhile_ws_replicate_a, dropEndWS_replicate_a]

theorem trim_cons_nl (l : Str) : trim ('\n' :: l) = trim l := rfl

theorem toLowerStr_replicate_a (n : Nat) :
    toLowerStr (List.replicate n 'a') = List.replicate n 'a' := by
  show (List.replicate n 'a').map Char.toLower = _
  rw [List.map_replicate]
  rfl

theorem splitOnChar_nl_replicate_a (n : Nat) :
    splitOnChar '\n' (List.replicate n 'a') = [List.replicate n 'a'] := by
  induction n with
  | zero => rfl
  | succ n ih =>
    rw [List.replicate_succ]
    simp only [splitOnChar]
    rw [ih]
    rfl

theorem pageOfTest_replicate_a (n : Nat) : pageOfTest (List.replicate n 'a') = false := by
  induction n with
  | zero => rfl
  | succ n ih =>
    rw [List.replicate_succ]
    exact ih

theorem nOfMTest_replicate_a (n : Nat) : nOfMTest (List.replicate n 'a') = false := by
  cases n with
  | zero => rfl
  | succ n =>
    rw [List.replicate_succ]
    rfl

theorem containsSub_mfdic_replicate_a (n : Nat) :
    containsSub (List.replicate n 'a')
      ['m', 'e', 'm', 'b', 'e', 'r', ' ', 'f', 'd', 'i', 'c'] = false := by
  induction n with
  | zero => rfl
  | succ n ih =>
    rw [List.replicate_succ]
    exact ih

theorem containsSub_conti_replicate_a (n : Nat) :
    containsSub (List.replicate n 'a')
      ['c', 'o', 'n', 't', 'i', 'n', 'u', 'e', 'd', ' ', 'o', 'n', ' ',
       'n', 'e', 'x', 't', ' ', 'p', 'a', 'g', 'e'] = false := by
  induction n with
  | zero => rfl
  | succ n ih =>
    rw [List.replicate_succ]
    exact ih

theorem lw_statement_replicate_a (n : Nat) :
    leadsWith ['s', 't', 'a', 't', 'e', 'm', 'e', 'n', 't', ' ', 'd', 'a', 't', 'e', ':']
      (List.replicate n 'a') = false := by
  cases n with
  | zero => rfl
  | succ n =>
    rw [List.replicate_succ]
    rfl

theorem lw_account_replicate_a (n : Nat) :
    leadsWith ['a', 'c', 'c', 'o', 'u', 'n', 't', ' ', 'n', 'u', 'm', 'b', 'e', 'r', ':']
      (List.replicate n 'a') = false := by
  cases n with
  | zero => rfl
  | succ n =>
    rw [List.replicate_succ]
    show leadsWith ['c', 'c', 'o', 'u', 'n', 't', ' ', 'n', 'u', 'm', 'b', 'e', 'r', ':']
      (List.replicate n 'a') = false
    cases n with
    | zero => rfl
    | succ m =>
      rw [List.replicate_succ]
      rfl

theorem docCodeTest_replicate_a (n : Nat) :
    docCodeTest (List.replicate n 'a') = false := by
  cases n with
  | zero => rfl
  | succ n =>
    rw [List.replicate_succ]
    rfl

theorem footer_replicate_a (n : Nat) :
    isPageFooterOrHeader (List.replicate n 'a') = false := by
  simp only [isPageFooterOrHeader, trim_replicate_a, splitOnChar_nl_replicate_a,
    List.length_cons, List.length_nil, toLowerStr_replicate_a, pageOfTest_replicate_a,
    nOfMTest_replicate_a, containsSub_mfdic_replicate_a, containsSub_conti_replicate_a,
    lw_statement_replicate_a, lw_account_replicate_a, docCodeTest_replicate_a,
    Bool.or_self, Bool.or_false, Bool.false_or, ite_self]

theorem fragStep_text_keep (acc : Str × Metadata) (ro : Int) (c : Str)
    (hne : c ≠ []) (htr : trim c ≠ []) (hfo : isPageFooterOrHeader c = false) :
    fragStep acc (textFragment ro c) = (acc.1 ++ '\n' :: c, acc.2) := by
  have hjs : jsOrStr ((textFragment ro c).content.bind FragContent.content) [] = c := by
    show jsOrStr (some c) [] = c
    simp only [jsOrStr]
    rw [if_neg hne]
  have hnt : ¬ (textFragment ro c).fragment_type = "table".data := by
    show ¬ ("text".data : Str) = "table".data
    decide
  simp only [fragStep]
  rw [if_neg hnt]
  rw [if_pos (show (textFragment ro c).fragment_type = "text".data from rfl)]
  rw [hjs]
  have hcond : (decide (trim c ≠ []) && !isPageFooterOrHeader c) = true := by
    rw [decide_eq_true htr, hfo]
    rfl
  rw [if_pos hcond]

theorem extractPageContent_one_text (ro : Int) (c : Str)
    (hne : c ≠ []) (htr : trim c ≠ []) (hfo : isPageFooterOrHeader c = false) :
    extractPageContent [textFragment ro c] = (trim ('\n' :: c), initMetadata) := by
  simp only [extractPageContent]
  rw [show sortByRO [textFragment ro c] = [textFragment ro c] from rfl]
  rw [List.foldl_cons, List.foldl_nil]
  rw [fragStep_text_keep ([], initMetadata) ro c hne htr hfo]
  rfl

theorem extractFromParsedDocument_of_pages (d : ParsedDoc) (mx : Nat) (pages : List Page)
    (hp : d.pages = some pages)
    (hne : (consGo (bankNameOfDoc d) mx initConsState pages 0).chunks ≠ []) :
    (extractFromParsedDocument d mx).chunks =
      (consGo (bankNameOfDoc d) mx initConsState pages 0).chunks.map
        (fun c => { c with
          total_chunks := some (consGo (bankNameOfDoc d) mx initConsState pages 0).chunks.length }) := by
  have hlen : ¬ (consGo (bankNameOfDoc d) mx initConsState pages 0).chunks.length = 0 :=
    fun h => hne (List.length_eq_zero.mp h)
  simp only [extractFromParsedDocument, hp]
  rw [if_neg hlen]

/-- Scenario 4 of the spec, computed symbolically: three pages of 5000
`a`s at `maxChars = 12000` consolidate into two chunks, pages 1-2
(10022 characters, page-break marker included) and page 3 (5000). -/
theorem c2_scenario :
    (extractFromParsedDocument docThreePages 12000).chunks.map
        (fun c => (c.char_len, c.page_range)) =
      [(10022, some "1-2".data), (5000, some "3".data)] := by
  have hAne : List.replicate 5000 'a' ≠ ([] : Str) := by
    rw [show (5000 : Nat) = 4999 + 1 from rfl, List.replicate_succ]
    exact List.cons_ne_nil _ _
  have htr : trim (List.replicate 5000 'a') = List.replicate 5000 'a' :=
    trim_replicate_a 5000
  have htrne : trim (List.replicate 5000 'a') ≠ [] := by
    rw [htr]
    exact hAne
  have hE : extractPageContent [textFragment 0 (List.replicate 5000 'a')] =
      (List.replicate 5000 'a', initMetadata) := by
    rw [extractPageContent_one_text 0 _ hAne htrne (footer_replicate_a 5000)]
    rw [trim_cons_nl, htr]
  have hE1 : (extractPageContent [textFragment 0 (List.replicate 5000 'a')]).1 =
      List.replicate 5000 'a' := by rw [hE]
  have hE2 : (extractPageContent [textFragment 0 (List.replicate 5000 'a')]).2 =
      initMetadata := by rw [hE]
  have hp1 : processPage "B".data 12000 initConsState
      (simplePage 1 [textFragment 0 (List.replicate 5000 'a')]) 0 false =
      ⟨[], 1, List.replicate 5000 'a', initMetadata, 1, 1⟩ := by
    rw [processPage_mid "B".data 12000 initConsState _ 0
      [textFragment 0 (List.replicate 5000 'a')] rfl]
    rw [hE1, hE2]
    rw [pageBranch_seed "B".data 12000 initConsState _ _ _ rfl]
    rfl
  have hp2 : processPage "B".data 12000
      ⟨[], 1, List.replicate 5000 'a', initMetadata, 1, 1⟩
      (simplePage 2 [textFragment 0 (List.replicate 5000 'a')]) 1 false =
      ⟨[], 1, List.replicate 5000 'a' ++ pageBreakMarker ++ List.replicate 5000 'a',
       mergeMetadata initMetadata initMetadata, 1, 2⟩ := by
    rw [processPage_mid "B".data 12000 _ _ 1
      [textFragment 0 (List.replicate 5000 'a')] rfl]
    rw [hE1, hE2]
    rw [show pageNumOr (simplePage 2 [textFragment 0 (List.replicate 5000 'a')]) 1 = 2
      from rfl]
    have hle2 : (⟨[], 1, List.replicate 5000 'a', initMetadata, 1, 1⟩ : ConsState).cur.length +
        (List.replicate 5000 'a').length ≤ 12000 := by
      rw [show (⟨[], 1, List.replicate 5000 'a', initMetadata, 1, 1⟩ : ConsState).cur =
        List.replicate 5000 'a' from rfl]
      rw [List.length_replicate]
      omega
    have happ := pageBranch_append "B".data 12000
      ⟨[], 1, List.replicate 5000 'a', initMetadata, 1, 1⟩
      (List.replicate 5000 'a') initMetadata 2 hAne hle2
    rw [happ]
  have hp3 : processPage "B".data 12000
      ⟨[], 1, List.replicate 5000 'a' ++ pageBreakMarker ++ List.replicate 5000 'a',
       mergeMetadata initMetadata initMetadata, 1, 2⟩
      (simplePage 3 [textFragment 0 (List.replicate 5000 'a')]) 2 true =
      ⟨[flushChunk "B".data
          ⟨[], 1, List.replicate 5000 'a' ++ pageBreakMarker ++ List.replicate 5000 'a',
           mergeMetadata initMetadata initMetadata, 1, 2⟩,
        flushChunk "B".data
          ⟨[flushChunk "B".data
              ⟨[], 1, List.replicate 5000 'a' ++ pageBreakMarker ++ List.replicate 5000 'a',
               mergeMetadata initMetadata initMetadata, 1, 2⟩],
           2, List.replicate 5000 'a', initMetadata, 3, 3⟩],
       2, List.replicate 5000 'a', initMetadata, 3, 3⟩ := by
    have hcur0 : (List.replicate 5000 'a' ++ pageBreakMarker ++ List.replicate 5000 'a') ≠
        ([] : Str) := fun h => hAne (List.append_eq_nil.mp h).2
    have hgt0 : 12000 <
        (⟨[], 1, List.replicate 5000 'a' ++ pageBreakMarker ++ List.replicate 5000 'a',
          mergeMetadata initMetadata initMetadata, 1, 2⟩ : ConsState).cur.length +
          (List.replicate 5000 'a').length := by
      rw [show (⟨[], 1, List.replicate 5000 'a' ++ pageBreakMarker ++ List.replicate 5000 'a',
          mergeMetadata initMetadata initMetadata, 1, 2⟩ : ConsState).cur =
        List.replicate 5000 'a' ++ pageBreakMarker ++ List.replicate 5000 'a' from rfl]
      rw [List.length_append, List.length_append, List.length_replicate]
      rw [show pageBreakMarker.length = 22 from rfl]
      omega
    have hPB : pageBranch "B".data 12000
        ⟨[], 1, List.replicate 5000 'a' ++ pageBreakMarker ++ List.replicate 5000 'a',
         mergeMetadata initMetadata initMetadata, 1, 2⟩
        (extractPageContent [textFragment 0 (List.replicate 5000 'a')]).1
        (extractPageContent [textFragment 0 (List.replicate 5000 'a')]).2
        (pageNumOr (simplePage 3 [textFragment 0 (List.replicate 5000 'a')]) 2) =
        ⟨[flushChunk "B".data
            ⟨[], 1, List.replicate 5000 'a' ++ pageBreakMarker ++ List.replicate 5000 'a',
             mergeMetadata initMetadata initMetadata, 1, 2⟩],
         2, List.replicate 5000 'a', initMetadata, 3, 3⟩ := by
      rw [hE1, hE2]
      rw [show pageNumOr (simplePage 3 [textFragment 0 (List.replicate 5000 'a')]) 2 = 3
        from rfl]
      rw [pageBranch_flush "B".data 12000
        ⟨[], 1, List.replicate 5000 'a' ++ pageBreakMarker ++ List.replicate 5000 'a',
         mergeMetadata initMetadata initMetadata, 1, 2⟩
        (List.replicate 5000 'a') initMetadata 3 hcur0 hgt0]
      rfl
    rw [processPage_fin "B".data 12000 _ _ 2
      [textFragment 0 (List.replicate 5000 'a')] rfl
      (by
        rw [hPB]
        show trim (List.replicate 5000 'a') ≠ []
        exact htrne)]
    rw [hPB]
    rfl
  have hbank : bankNameOfDoc docThreePages = "B".data := rfl
  have hchain : consGo (bankNameOfDoc docThreePages) 12000 initConsState
      [simplePage 1 [textFragment 0 (List.replicate 5000 'a')],
       simplePage 2 [textFragment 0 (List.replicate 5000 'a')],
       simplePage 3 [textFragment 0 (List.replicate 5000 'a')]] 0 =
      ⟨[flushChunk "B".data
          ⟨[], 1, List.replicate 5000 'a' ++ pageBreakMarker ++ List.replicate 5000 'a',
           mergeMetadata initMetadata initMetadata, 1, 2⟩,
        flushChunk "B".data
          ⟨[flushChunk "B".data
              ⟨[], 1, List.replicate 5000 'a' ++ pageBreakMarker ++ List.replicate 5000 'a',
               mergeMetadata initMetadata initMetadata, 1, 2⟩],
           2, List.replicate 5000 'a', initMetadata, 3, 3⟩],
       2, List.replicate 5000 'a', initMetadata, 3, 3⟩ := by
    rw [hbank]
    rw [show consGo "B".data 12000 initConsState
        [simplePage 1 [textFragment 0 (List.replicate 5000 'a')],
         simplePage 2 [textFragment 0 (List.replicate 5000 'a')],
         simplePage 3 [textFragment 0 (List.replicate 5000 'a')]] 0 =
      processPage "B".data 12000
        (processPage "B".data 12000
          (processPage "B".data 12000 initConsState
            (simplePage 1 [textFragment 0 (List.replicate 5000 'a')]) 0 false)
          (simplePage 2 [textFragment 0 (List.replicate 5000 'a')]) 1 false)
        (simplePage 3 [textFragment 0 (List.replicate 5000 'a')]) 2 true from rfl]
    rw [hp1, hp2, hp3]
  have hne2 : (consGo (bankNameOfDoc docThreePages) 12000 initConsState
      [simplePage 1 [textFragment 0 (List.replicate 5000 'a')],
       simplePage 2 [textFragment 0 (List.replicate 5000 'a')],
       simplePage 3 [textFragment 0 (List.replicate 5000 'a')]] 0).chunks ≠ [] := by
    rw [hchain]
    exact List.cons_ne_nil _ _
  rw [extractFromParsedDocument_of_pages docThreePages 12000
    [simplePage 1 [textFragment 0 (List.replicate 5000 'a')],
     simplePage 2 [textFragment 0 (List.replicate 5000 'a')],
     simplePage 3 [textFragment 0 (List.replicate 5000 'a')]] rfl hne2]
  rw [hchain]
  simp only [List.map_cons, List.map_nil, flushChunk, List.length_append,
    List.length_replicate, List.length_cons, List.length_nil]
  rw [show pageBreakMarker.length = 22 from rfl]
  decide

/-- C2 (amended): in the page-consolidation loop, with a non-empty
running buffer, a page is appended to it (joined by the explicit
page-break marker, extending the end page number and merging metadata)
exactly when the buffer length plus the page length — EXCLUDING the
22-character marker, which the size check ignores — does not exceed
maxChars; otherwise the buffer is flushed as one chunk first and the
page reseeds the buffer.  Scenario 4 still holds: three 5000-character
pages at maxChars = 12000 yield exactly two chunks, pages 1-2
(char_len 10022, marker included) and page 3 alone. -/
theorem claim_C2_amended :
    (∀ (bn : Str) (mx : Nat) (st : ConsState) (pc : Str) (pm : Metadata) (pn : Nat),
      st.cur ≠ [] →
      (st.cur.length + pc.length ≤ mx →
        pageBranch bn mx st pc pm pn =
          { st with
            cur := st.cur ++ pageBreakMarker ++ pc
            endP := pn
            meta := mergeMetadata st.meta pm }) ∧
      (mx < st.cur.length + pc.length →
        pageBranch bn mx st pc pm pn =
          { chunks := st.chunks ++ [flushChunk bn st]
            idx := st.idx + 1
            cur := pc
            meta := pm
            startP := pn
            endP := pn })) ∧
    pageBreakMarker.length = 22 ∧
    (extractFromParsedDocument docThreePages 12000).chunks.map
        (fun c => (c.char_len, c.page_range)) =
      [(10022, some "1-2".data), (5000, some "3".data)] :=
  ⟨fun bn mx st pc pm pn h0 =>
    ⟨fun hle => pageBranch_append bn mx st pc pm pn h0 hle,
     fun hgt => pageBranch_flush bn mx st pc pm pn h0 hgt⟩,
   rfl, c2_scenario⟩

/-- Witness for C2 (amended): both branches of the rule at concrete
states — a 2-character buffer and a 3-character page append under
maxChars 30 and flush under maxChars 4. -/
theorem claim_C2_amended_witness :
    pageBranch "B".data 30 ⟨[], 1, "xx".data, initMetadata, 1, 1⟩ "yyy".data initMetadata 2 =
      { (⟨[], 1, "xx".data, initMetadata, 1, 1⟩ : ConsState) with
        cur := "xx".data ++ pageBreakMarker ++ "yyy".data
        endP := 2
        meta := mergeMetadata initMetadata initMetadata } ∧
    pageBranch "B".data 4 ⟨[], 1, "xx".data, initMetadata, 1, 1⟩ "yyy".data initMetadata 2 =
      { chunks := [] ++ [flushChunk "B".data ⟨[], 1, "xx".data, initMetadata, 1, 1⟩]
        idx := 2
        cur := "yyy".data
        meta := initMetadata
        startP := 2
        endP := 2 } :=
  ⟨(claim_C2_amended.1 "B".data 30 ⟨[], 1, "xx".data, initMetadata, 1, 1⟩ "yyy".data
      initMetadata 2 (by decide)).1 (by decide),
   (claim_C2_amended.1 "B".data 4 ⟨[], 1, "xx".data, initMetadata, 1, 1⟩ "yyy".data
      initMetadata 2 (by decide)).2 (by decide)⟩

/-! ### C9: the error boundary -/

theorem ensurePayload_isOk_char (p : Payload) :
    exceptIsOk (ensurePayload p) = !(noUsableInput p) := by
  have hht : (match p.html with | some s => trim s | none => ([] : Str)) =
      trim (p.html.getD []) := by
    cases p.html <;> rfl
  have htt : (match p.text with | some s => trim s | none => ([] : Str)) =
      trim (p.text.getD []) := by
    cases p.text <;> rfl
  simp only [ensurePayload]
  rw [hht, htt]
  by_cases hA : ((effectiveDoc p).pages.isSome || (effectiveDoc p).chunks.isSome) = true
  · rw [if_pos hA]
    have h2 : noUsableInput p = false := by
      cases hp : (effectiveDoc p).pages with
      | some v => simp [noUsableInput, hp]
      | none =>
        cases hc : (effectiveDoc p).chunks with
        | some w => simp [noUsableInput, hp, hc]
        | none => rw [hp, hc] at hA; simp at hA
    rw [h2]
    rfl
  · rw [if_neg hA]
    have hAf : ((effectiveDoc p).pages.isSome || (effectiveDoc p).chunks.isSome) = false := by
      simpa using hA
    have hNU : noUsableInput p =
        (decide (trim (p.html.getD []) = []) && decide (trim (p.text.getD []) = [])) := by
      unfold noUsableInput
      cases hp : (effectiveDoc p).pages with
      | some v => rw [hp] at hAf; simp at hAf
      | none =>
        cases hc : (effectiveDoc p).chunks with
        | some w => rw [hp, hc] at hAf; simp at hAf
        | none => simp [hp, hc]
    by_cases hB : (decide (trim (p.html.getD []) = []) && decide (trim (p.text.getD []) = [])) = true
    · rw [if_pos hB, hNU, hB]
      rfl
    · rw [if_neg hB, hNU]
      have hBf : (decide (trim (p.html.getD []) = []) &&
          decide (trim (p.text.getD []) = [])) = false := by
        simpa using hB
      rw [hBf]
      rfl

theorem handleSegment_isOk (f : Str → HtmlDoc) (p : Payload) :
    exceptIsOk (handleSegment f p) = exceptIsOk (ensurePayload p) := by
  simp only [handleSegment]
  cases he : ensurePayload p with
  | error e => rfl
  | ok r =>
    show exceptIsOk (if r.html ≠ [] then _ else _) = true
    split <;> rfl

/-- C9: `ensurePayload` rejects a payload (the 400 `InvalidInput` error)
exactly when the payload has no non-blank html string, no non-blank text
string, and the effective parsed document (explicit `parsed_document` /
`document` field or the body itself) carries neither `pages` nor
`chunks`; on every other payload the entry point returns a successful
response — the extraction pipeline itself is total and throws for no
content, however malformed. -/
theorem claim_C9_invalid_input :
    ∀ (p : Payload) (f : Str → HtmlDoc),
      (exceptIsOk (ensurePayload p) = false ↔ noUsableInput p = true) ∧
      (exceptIsOk (handleSegment f p) = true ↔ noUsableInput p = false) := by
  intro p f
  constructor
  · rw [ensurePayload_isOk_char]
    cases noUsableInput p <;> simp
  · rw [handleSegment_isOk, ensurePayload_isOk_char]
    cases noUsableInput p <;> simp

/-- C7 counterexample: for `s = " aaaaa"` and `max = 5`,
`split(s.trim(), max)` is one segment (`"aaaaa"`) while `split(s, max)`
with each output trimmed is two (`"aaaa"`, `"a"`): trimming first shifts
the window alignment. -/
theorem claim_C7_counterexample :
    ¬ chunkify (trim strLeadingWS) 5 = (chunkify strLeadingWS 5).map trim := by
  decide

end Segmenter
